import Mathlib

/-!
# MorseMatching

A shallow embedding of `MorseMatching.h` (pyCHomP): the coreduction algorithm that
computes an acyclic matching (`mate_`) and a reduction order (`priority_`) on the
cells of a complex, in its plain form (constructor from a `Complex`) and in its
graded form (constructor from a `Fibration`).

Conventions of the embedding.

* A cell of a complex of size `N` is an element of `Fin N`; the arrays `mate_`,
  `priority_` and `boundary_count` are functions on `Fin N` with values in `Int`
  (the source type `Integer`); the unset value of `mate_` is `-1`.
* The two `std::unordered_set<Integer>` working sets are `Finset (Fin N)`.  The element
  returned by `begin()` is not determined by the source; it is chosen by an oracle
  `ord : Nat → Nat` that is consulted once per iteration of the main loop, so that
  quantifying over `ord` quantifies over every extraction order.
* Behaviour that the source leaves undefined (dereferencing `begin()` of an empty set,
  reading the never assigned local `Q`) and the two `throw` statements are results
  `Except.error _`.
* The main loop runs on a fuel argument; the constructors supply fuel `N`, which is
  enough because every iteration increases `num_processed`.
* `State.log` and `State.aces` are ghost fields: they record the calls of `process`
  and the cells extracted in the `else` branch; no program variable depends on them.
* The graded constructor is read twice.  `graded` takes integer arithmetic as exact and
  enumerates the chains returned by `bd` and `cbd` in the order in which they were built.
  `gradedM` stores priorities in the 64-bit type `Integer` (`wrap`) and enumerates those
  chains in an arbitrary order `enum`.  On a well-formed complex with a fibration that has
  the closure property both return the same matching (`gradedM_same_matching`), and the
  same state when the arithmetic is exact.
-/

namespace MorseMatching

/-- Modelled from the spec: `Complex.h` and `Chain.h` are not among the sources.  A complex
of size `N` exposes, for every cell, its boundary and its coboundary as a chain, that is a
set of cells; the list is the order in which the chain is enumerated and has no repeated
cell. -/
structure Complex (N : Nat) where
  boundary : Fin N → List (Fin N)
  coboundary : Fin N → List (Fin N)
  boundary_nodup : ∀ x, (boundary x).Nodup
  coboundary_nodup : ∀ x, (coboundary x).Nodup

/-- The outcomes of a construction that are not a result. -/
inductive Err where
  /-- The exception "fibration closure property failed" thrown by `bd`. -/
  | closureViolation
  /-- The exception "fibration error -- memory bug?" thrown by the graded main loop. -/
  | consistencyViolation
  /-- The local `Q` is read although no face of `K` has an unset mate (undefined in the source). -/
  | uninitialisedQ
  /-- The iterator `begin()` of an empty set is dereferenced (undefined in the source). -/
  | emptyExtraction
  /-- The model ran out of fuel. -/
  | outOfFuel
  deriving DecidableEq, Repr

/-- The members `mate_`, `priority_` of the object under construction together with the
locals `num_processed`, `boundary_count`, `coreducible`, `ace_candidates` of the
constructor, and the ghost fields `log` (cells in the order in which `process` was called
on them) and `aces` (cells extracted in the `else` branch). -/
structure State (N : Nat) where
  mate_ : Fin N → Int
  priority_ : Fin N → Int
  num_processed : Int
  boundary_count : Fin N → Int
  coreducible : Finset (Fin N)
  ace_candidates : Finset (Fin N)
  log : List (Fin N)
  aces : List (Fin N)

variable {N : Nat}

/-- The accessor `mate`. -/
def mate (s : State N) (x : Fin N) : Int := s.mate_ x

/-- The accessor `priority`. -/
def priority (s : State N) (x : Fin N) : Int := s.priority_ x

/-- The state after the declarations that open both constructors: `mate_.resize(N,-1)`,
`priority_.resize(N)`, `num_processed = 0`, `boundary_count (N)`, two empty sets. -/
def start (N : Nat) : State N :=
  { mate_ := fun _ => -1
    priority_ := fun _ => 0
    num_processed := 0
    boundary_count := fun _ => 0
    coreducible := ∅
    ace_candidates := ∅
    log := []
    aces := [] }

/-- The body of the classification loop once `boundary_count[x]` is known to be `n`:
`switch ( boundary_count[x] ) { case 0: ace_candidates.insert(x); case 1: coreducible.insert(x); }`. -/
def classify (s : State N) (x : Fin N) (n : Int) : State N :=
  let s1 := { s with boundary_count := Function.update s.boundary_count x n }
  if s1.boundary_count x = 0 then { s1 with ace_candidates := insert x s1.ace_candidates }
  else if s1.boundary_count x = 1 then { s1 with coreducible := insert x s1.coreducible }
  else s1

/-- The loop `for ( auto x : complex )` of the plain constructor (lines 30-36). -/
def init (c : Complex N) : State N :=
  (List.finRange N).foldl (fun s x => classify s x ((c.boundary x).length : Int)) (start N)

/-- The body of the loop over the cofaces in `process` (lines 43-47 and 116-120):
decrement `boundary_count[x]` and move `x` between the working sets. -/
def touch (s : State N) (x : Fin N) : State N :=
  let s1 := { s with boundary_count := Function.update s.boundary_count x (s.boundary_count x - 1) }
  if s1.boundary_count x = 0 then
    { s1 with coreducible := s1.coreducible.erase x, ace_candidates := insert x s1.ace_candidates }
  else if s1.boundary_count x = 1 then { s1 with coreducible := insert x s1.coreducible }
  else s1

/-- The lambda `process` of the plain constructor (lines 38-49). -/
def process (c : Complex N) (s : State N) (y : Fin N) : State N :=
  let s1 : State N :=
    { s with
      priority_ := Function.update s.priority_ y s.num_processed
      num_processed := s.num_processed + 1
      coreducible := s.coreducible.erase y
      ace_candidates := s.ace_candidates.erase y
      log := s.log ++ [y] }
  (c.coboundary y).foldl touch s1

/-- The cells of a working set, in increasing order. -/
def members (S : Finset (Fin N)) : List (Fin N) :=
  (List.finRange N).filter (fun x => x ∈ S)

/-- The element `*S.begin()` as chosen by the oracle value `i`; `none` when `S` is empty. -/
def extract (S : Finset (Fin N)) (i : Nat) : Option (Fin N) :=
  (members S)[i % (members S).length]?

/-- The `if` branch of the plain main loop after `K` has been read from `coreducible.begin()`
(lines 55-59). -/
def coreduce (c : Complex N) (s : State N) (K : Fin N) : Except Err (State N) :=
  let s1 := { s with coreducible := s.coreducible.erase K }
  match (c.boundary K).find? (fun x => s1.mate_ x = -1) with
  | none => .error .uninitialisedQ
  | some Q =>
    let s2 := { s1 with mate_ := Function.update s1.mate_ K (Q : Int) }
    let s3 := { s2 with mate_ := Function.update s2.mate_ Q (K : Int) }
    .ok (process c (process c s3 Q) K)

/-- The `else` branch of the plain main loop after `A` has been read from
`ace_candidates.begin()` (lines 62-64). -/
def ace (c : Complex N) (s : State N) (A : Fin N) : State N :=
  let s1 := { s with ace_candidates := s.ace_candidates.erase A, aces := s.aces ++ [A] }
  let s2 := { s1 with mate_ := Function.update s1.mate_ A (A : Int) }
  process c s2 A

/-- One iteration of the plain main loop (lines 52-65); `i` is the oracle value. -/
def body (c : Complex N) (i : Nat) (s : State N) : Except Err (State N) :=
  if s.coreducible.Nonempty then
    match extract s.coreducible i with
    | none => .error .emptyExtraction
    | some K => coreduce c s K
  else
    match extract s.ace_candidates i with
    | none => .error .emptyExtraction
    | some A => .ok (ace c s A)

/-- The plain main loop `while ( num_processed < N )` (lines 51-66), started at iteration
number `t`. -/
def loop (c : Complex N) (ord : Nat → Nat) : Nat → Nat → State N → Except Err (State N)
  | 0, _, s => if s.num_processed < (N : Int) then .error .outOfFuel else .ok s
  | fuel + 1, t, s =>
    if s.num_processed < (N : Int) then
      match body c (ord t) s with
      | .error e => .error e
      | .ok s1 => loop c ord fuel (t + 1) s1
    else .ok s

/-- The constructor `MorseMatching ( std::shared_ptr<Complex> )`. -/
def plain (c : Complex N) (ord : Nat → Nat) : Except Err (State N) :=
  loop c ord N 0 (init c)

/-- The state at the `t`-th evaluation of the condition of the plain main loop (the state
stays what it is once the loop has ended). -/
def headState (c : Complex N) (ord : Nat → Nat) : Nat → Except Err (State N)
  | 0 => .ok (init c)
  | t + 1 =>
    match headState c ord t with
    | .error e => .error e
    | .ok s => if s.num_processed < (N : Int) then body c (ord t) s else .ok s

/-! ## Graded mode -/

/-- Modelled from the spec: `Fibration.h` is not among the sources.  A fibration on a
complex of size `N` is its function `value`, with integer grades. -/
abbrev Fibration (N : Nat) := Fin N → Int

/-- The loop of the lambda `bd` (lines 84-90) over the faces still to visit, `result` being
the chain built so far.  The faces are pairwise different, so that `result += y` adds `y`
to the chain; the list keeps the order of the insertions, which need not be the order in
which the chain is enumerated afterwards (see `coreduceM`). -/
def bdLoop (value : Fibration N) (x_val : Int) : List (Fin N) → List (Fin N) → Except Err (List (Fin N))
  | [], result => .ok result
  | y :: ys, result =>
    if value y > x_val then .error .closureViolation
    else if x_val = value y then bdLoop value x_val ys (result ++ [y])
    else bdLoop value x_val ys result

/-- The lambda `bd` (lines 81-92). -/
def bd (c : Complex N) (value : Fibration N) (x : Fin N) : Except Err (List (Fin N)) :=
  bdLoop value (value x) (c.boundary x) []

/-- The lambda `cbd` (lines 94-101). -/
def cbd (c : Complex N) (value : Fibration N) (x : Fin N) : List (Fin N) :=
  (c.coboundary x).foldl (fun result y => if value x = value y then result ++ [y] else result) []

/-- The loop `for ( auto x : complex )` of the graded constructor (lines 103-109) over the
cells still to visit. -/
def initGLoop (c : Complex N) (value : Fibration N) : List (Fin N) → State N → Except Err (State N)
  | [], s => .ok s
  | x :: xs, s =>
    match bd c value x with
    | .error e => .error e
    | .ok b => initGLoop c value xs (classify s x (b.length : Int))

/-- The initial pass of the graded constructor (lines 73-79 and 103-109). -/
def initG (c : Complex N) (value : Fibration N) : Except Err (State N) :=
  initGLoop c value (List.finRange N) (start N)

/-- The lambda `process` of the graded constructor (lines 111-122), integer arithmetic taken
as exact: the priority is `value y * N + num_processed` without the bound of `Integer`
(`processM` is the same lambda in machine arithmetic). -/
def processG (c : Complex N) (value : Fibration N) (s : State N) (y : Fin N) : State N :=
  let s1 : State N :=
    { s with
      priority_ := Function.update s.priority_ y (value y * (N : Int) + s.num_processed)
      num_processed := s.num_processed + 1
      coreducible := s.coreducible.erase y
      ace_candidates := s.ace_candidates.erase y
      log := s.log ++ [y] }
  (cbd c value y).foldl touch s1

/-- The `if` branch of the graded main loop after `K` has been read from
`coreducible.begin()` (lines 128-135), with the chain `bd(K)` enumerated in the order in
which it was built (`coreduceM` takes any enumeration order). -/
def coreduceG (c : Complex N) (value : Fibration N) (s : State N) (K : Fin N) :
    Except Err (State N) :=
  let s1 := { s with coreducible := s.coreducible.erase K }
  match bd c value K with
  | .error e => .error e
  | .ok b =>
    match b.find? (fun x => s1.mate_ x = -1) with
    | none => .error .uninitialisedQ
    | some Q =>
      if value K ≠ value Q then .error .consistencyViolation
      else
        let s2 := { s1 with mate_ := Function.update s1.mate_ K (Q : Int) }
        let s3 := { s2 with mate_ := Function.update s2.mate_ Q (K : Int) }
        .ok (processG c value (processG c value s3 Q) K)

/-- The `else` branch of the graded main loop after `A` has been read from
`ace_candidates.begin()` (lines 138-140). -/
def aceG (c : Complex N) (value : Fibration N) (s : State N) (A : Fin N) : State N :=
  let s1 := { s with ace_candidates := s.ace_candidates.erase A, aces := s.aces ++ [A] }
  let s2 := { s1 with mate_ := Function.update s1.mate_ A (A : Int) }
  processG c value s2 A

/-- One iteration of the graded main loop (lines 125-141); `i` is the oracle value. -/
def bodyG (c : Complex N) (value : Fibration N) (i : Nat) (s : State N) : Except Err (State N) :=
  if s.coreducible.Nonempty then
    match extract s.coreducible i with
    | none => .error .emptyExtraction
    | some K => coreduceG c value s K
  else
    match extract s.ace_candidates i with
    | none => .error .emptyExtraction
    | some A => .ok (aceG c value s A)

/-- The graded main loop `while ( num_processed < N )` (lines 124-142), started at
iteration number `t`. -/
def loopG (c : Complex N) (value : Fibration N) (ord : Nat → Nat) :
    Nat → Nat → State N → Except Err (State N)
  | 0, _, s => if s.num_processed < (N : Int) then .error .outOfFuel else .ok s
  | fuel + 1, t, s =>
    if s.num_processed < (N : Int) then
      match bodyG c value (ord t) s with
      | .error e => .error e
      | .ok s1 => loopG c value ord fuel (t + 1) s1
    else .ok s

/-- The constructor `MorseMatching ( std::shared_ptr<Fibration> )`. -/
def graded (c : Complex N) (value : Fibration N) (ord : Nat → Nat) : Except Err (State N) :=
  match initG c value with
  | .error e => .error e
  | .ok s => loopG c value ord N 0 s

/-! ## Example complexes -/

/-- The triangle edge complex: vertices `0,1,2`, edges `3,4,5` with boundaries
`{0,1}`, `{1,2}`, `{0,2}`. -/
def triangle : Complex 6 where
  boundary := fun x =>
    if x = 3 then [0, 1] else if x = 4 then [1, 2] else if x = 5 then [0, 2] else []
  coboundary := fun x =>
    if x = 0 then [3, 5] else if x = 1 then [3, 4] else if x = 2 then [4, 5] else []
  boundary_nodup := by decide
  coboundary_nodup := by decide

/-! ## Exploring every extraction order, and the example complexes -/

/-- The results of the plain main loop started in `s`, over every choice of the cells
extracted from the working sets. -/
def outcomes (c : Complex N) : Nat → State N → List (Except Err (State N))
  | 0, s => if s.num_processed < (N : Int) then [.error .outOfFuel] else [.ok s]
  | fuel + 1, s =>
    if s.num_processed < (N : Int) then
      if s.coreducible.Nonempty then
        (members s.coreducible).flatMap (fun K =>
          match coreduce c s K with
          | .error e => [.error e]
          | .ok s1 => outcomes c fuel s1)
      else if s.ace_candidates.Nonempty then
        (members s.ace_candidates).flatMap (fun A => outcomes c fuel (ace c s A))
      else [.error .emptyExtraction]
    else [.ok s]

/-- The result `r` is a state on which the test `p` succeeds. -/
def returns (r : Except Err (State N)) (p : State N → Bool) : Bool :=
  match r with
  | .ok s => p s
  | .error _ => false

/-- The result `r` is the failure `e`. -/
def failsWith (r : Except Err (State N)) (e : Err) : Bool :=
  match r with
  | .ok _ => false
  | .error e1 => decide (e1 = e)

/-- The dimension of the cells of the triangle edge complex. -/
def triangleDim : Fin 6 → Nat := fun x => if x.val < 3 then 0 else 1

/-- A fibration on the triangle edge complex with the closure property: the edge `5` has
grade 1, every other cell grade 0. -/
def triangleValue : Fibration 6 := fun x => if x = 5 then 1 else 0

/-- What the spec's example asks of a result on the triangle edge complex: exactly two
critical cells, one vertex and one edge; every other vertex paired with an edge incident
to it; `mate` an involution. -/
def triangleTest (s : State 6) : Bool :=
  decide ((Finset.univ.filter (fun x : Fin 6 => mate s x = ((x : Nat) : Int))).card = 2 ∧
    (Finset.univ.filter (fun x : Fin 6 => x.val < 3 ∧ mate s x = ((x : Nat) : Int))).card = 1 ∧
    (Finset.univ.filter (fun x : Fin 6 => 3 ≤ x.val ∧ mate s x = ((x : Nat) : Int))).card = 1 ∧
    (∀ v : Fin 6, v.val < 3 → mate s v ≠ ((v : Nat) : Int) →
      ∃ e : Fin 6, 3 ≤ e.val ∧ mate s v = ((e : Nat) : Int) ∧ v ∈ triangle.boundary e) ∧
    (∀ x : Fin 6, ∃ y : Fin 6, mate s x = ((y : Nat) : Int) ∧ mate s y = ((x : Nat) : Int)))

/-- Four cells `0,1,2,3` with boundary(2) = {0,1} and boundary(3) = {2}: boundary and
coboundary are inverse and faces have lower dimension, but the boundary of the boundary of
`3` is `{0,1}`, not zero. -/
def tower : Complex 4 where
  boundary := fun x => if x = 2 then [0, 1] else if x = 3 then [2] else []
  coboundary := fun x => if x = 0 then [2] else if x = 1 then [2] else if x = 2 then [3] else []
  boundary_nodup := by decide
  coboundary_nodup := by decide

/-- A dimension of the cells of `tower`. -/
def towerDim : Fin 4 → Nat := fun x => if x = 2 then 1 else if x = 3 then 2 else 0

/-- Four cells with boundary(0) = boundary(3) = {1,2} and boundary(1) = boundary(2) = {0,3}:
boundary and coboundary are inverse and the boundary of a boundary is zero mod 2, but no
dimension makes every face lower than its coface. -/
def cycle : Complex 4 where
  boundary := fun x => if x = 0 ∨ x = 3 then [1, 2] else [0, 3]
  coboundary := fun x => if x = 0 ∨ x = 3 then [1, 2] else [0, 3]
  boundary_nodup := by decide
  coboundary_nodup := by decide

/-! ## Well-formed complexes and the invariants of the main loop -/

/-- Coboundary is the exact inverse of boundary: `x` is a face of `y` iff `y` is a coface
of `x`. -/
def Inverse (c : Complex N) : Prop :=
  ∀ x y : Fin N, x ∈ c.boundary y ↔ y ∈ c.coboundary x

/-- Every face has strictly lower dimension than its coface. -/
def Dimensioned (c : Complex N) (dim : Fin N → Nat) : Prop :=
  ∀ x y : Fin N, x ∈ c.boundary y → dim x < dim y

/-- The boundary of a boundary is zero mod 2: for all cells `x`, `z` the number of faces
`y` of `x` that have `z` as a face is even. -/
def BoundarySquaredZero (c : Complex N) : Prop :=
  ∀ x z : Fin N, ((c.boundary x).filter (fun y => decide (z ∈ c.boundary y))).length % 2 = 0

/-- A well-formed complex, with `dim` the dimension of its cells. -/
structure WellFormed (c : Complex N) (dim : Fin N → Nat) : Prop where
  inverse : Inverse c
  dimension : Dimensioned c dim
  squared : BoundarySquaredZero c

/-- The number of faces of `x` on which `process` has not been called yet. -/
def unprocessedFaces (c : Complex N) (s : State N) (x : Fin N) : Nat :=
  (c.boundary x).countP (fun y => decide (y ∉ s.log))

/-- The part of the loop invariant that is about the processed cells, the boundary counts
and the priorities; it holds between any two calls of `process`. -/
structure Core (c : Complex N) (s : State N) : Prop where
  nodup : s.log.Nodup
  count : s.num_processed = (s.log.length : Int)
  closed : ∀ x ∈ s.log, ∀ y ∈ c.boundary x, y ∈ s.log
  bc : ∀ x, s.boundary_count x = (unprocessedFaces c s x : Int)
  prio_range : ∀ x ∈ s.log, 0 ≤ s.priority_ x ∧ s.priority_ x < s.num_processed
  prio_inj : ∀ x ∈ s.log, ∀ y ∈ s.log, s.priority_ x = s.priority_ y → x = y
  prio_face : ∀ x ∈ s.log, ∀ y ∈ c.boundary x, s.priority_ y < s.priority_ x

/-- The working sets are right at the cell `x`: `x` is coreducible iff it is unprocessed
with boundary count 1, and an ace candidate iff it is unprocessed with boundary count 0. -/
def Sets (s : State N) (x : Fin N) : Prop :=
  (x ∈ s.coreducible ↔ x ∉ s.log ∧ s.boundary_count x = 1) ∧
  (x ∈ s.ace_candidates ↔ x ∉ s.log ∧ s.boundary_count x = 0)

/-- The part of the loop invariant that is about `mate_`. -/
structure Paired (c : Complex N) (s : State N) : Prop where
  set : ∀ x, x ∈ s.log ↔ s.mate_ x ≠ -1
  pair : ∀ x ∈ s.log, ∃ y, y ∈ s.log ∧ s.mate_ x = (y : Int) ∧ s.mate_ y = (x : Int) ∧
    ((x = y ∧ x ∈ s.aces) ∨
     (x ∈ c.boundary y ∧ s.priority_ y = s.priority_ x + 1) ∨
     (y ∈ c.boundary x ∧ s.priority_ x = s.priority_ y + 1))
  aces : ∀ x ∈ s.aces, x ∈ s.log ∧ s.mate_ x = (x : Int)

/-- The invariant of the main loop, at every evaluation of its condition. -/
structure Inv (c : Complex N) (s : State N) : Prop where
  core : Core c s
  sets : ∀ x, Sets s x
  paired : Paired c s

/-! ## Fibrations with the closure property -/

/-- The closure property of a fibration: no face has a greater grade than its coface. -/
def Closure (c : Complex N) (value : Fibration N) : Prop :=
  ∀ x : Fin N, ∀ y ∈ c.boundary x, value y ≤ value x

/-- The complex that the graded constructor works on when the closure property holds: the
faces and cofaces of a cell that have its grade. -/
def restrict (c : Complex N) (value : Fibration N) : Complex N where
  boundary := fun x => (c.boundary x).filter (fun y => decide (value x = value y))
  coboundary := fun x => (c.coboundary x).filter (fun y => decide (value x = value y))
  boundary_nodup := fun x => (c.boundary_nodup x).filter _
  coboundary_nodup := fun x => (c.coboundary_nodup x).filter _

/-- The state `s` with `priority_` replaced by `f`. -/
def setPriority (s : State N) (f : Fin N → Int) : State N :=
  { s with priority_ := f }

/-- The state `s` with the priority of every processed cell `x` raised by `value x * N`. -/
def regrade (value : Fibration N) (s : State N) : State N :=
  setPriority s (fun x => if x ∈ s.log then value x * (N : Int) + s.priority_ x else s.priority_ x)

/-- The state at the `t`-th evaluation of the condition of the graded main loop (the state
stays what it is once the loop has ended). -/
def headStateG (c : Complex N) (value : Fibration N) (ord : Nat → Nat) :
    Nat → Except Err (State N)
  | 0 => initG c value
  | t + 1 =>
    match headStateG c value ord t with
    | .error e => .error e
    | .ok s => if s.num_processed < (N : Int) then bodyG c value (ord t) s else .ok s

/-- The complex `tower` with one more cell `4` that has no face and no coface. -/
def towerWithPoint : Complex 5 where
  boundary := fun x => if x = 2 then [0, 1] else if x = 3 then [2] else []
  coboundary := fun x => if x = 0 then [2] else if x = 1 then [2] else if x = 2 then [3] else []
  boundary_nodup := by decide
  coboundary_nodup := by decide

/-- The priority that the plain `process` gave a cell is its position in the order of the
calls of `process`. -/
def Sequenced (s : State N) : Prop :=
  ∀ (i : Nat) (x : Fin N), s.log[i]? = some x → s.priority_ x = (i : Int)

/-! ## Graded mode in machine arithmetic

The definitions `processG` and `bd` above read the graded constructor with exact integers
and with the chain returned by `bd` and `cbd` enumerated in the order in which it was built.
The definitions below read it with the fixed-width type `Integer` and with an arbitrary
enumeration order of those chains. -/

/-- Modelled from the spec: `Integer.h` is not among the sources.  `Integer` is a signed
64-bit integer; `wrap x` is the value of that type that the exact result `x` of an
arithmetic operation is stored as (two's complement). -/
def wrap (x : Int) : Int :=
  (x + 9223372036854775808) % 18446744073709551616 - 9223372036854775808

/-- The arithmetic of the graded `process` is exact for the fibration `value`: for every
cell `x` and every sequence number `n` in `[0,N)`, `value x * N + n` is in the range of
`Integer`. -/
def Exact (value : Fibration N) : Prop :=
  ∀ x : Fin N, -9223372036854775808 ≤ value x * (N : Int) ∧
    value x * (N : Int) + (N : Int) ≤ 9223372036854775808

/-- The lambda `process` of the graded constructor (lines 111-122), with the priority
computed in `Integer` and the chain `cbd(y)`, built by the insertions listed by `cbd`,
enumerated in the order `enum` gives it. -/
def processM (c : Complex N) (value : Fibration N) (enum : List (Fin N) → List (Fin N))
    (s : State N) (y : Fin N) : State N :=
  let s1 : State N :=
    { s with
      priority_ := Function.update s.priority_ y (wrap (value y * (N : Int) + s.num_processed))
      num_processed := s.num_processed + 1
      coreducible := s.coreducible.erase y
      ace_candidates := s.ace_candidates.erase y
      log := s.log ++ [y] }
  (enum (cbd c value y)).foldl touch s1

/-- The `if` branch of the graded main loop after `K` has been read from
`coreducible.begin()` (lines 128-135), with the chain `bd(K)` enumerated in the order
`enum` gives it. -/
def coreduceM (c : Complex N) (value : Fibration N) (enum : List (Fin N) → List (Fin N))
    (s : State N) (K : Fin N) : Except Err (State N) :=
  let s1 := { s with coreducible := s.coreducible.erase K }
  match bd c value K with
  | .error e => .error e
  | .ok b =>
    match (enum b).find? (fun x => s1.mate_ x = -1) with
    | none => .error .uninitialisedQ
    | some Q =>
      if value K ≠ value Q then .error .consistencyViolation
      else
        let s2 := { s1 with mate_ := Function.update s1.mate_ K (Q : Int) }
        let s3 := { s2 with mate_ := Function.update s2.mate_ Q (K : Int) }
        .ok (processM c value enum (processM c value enum s3 Q) K)

/-- The `else` branch of the graded main loop after `A` has been read from
`ace_candidates.begin()` (lines 138-140), in machine arithmetic. -/
def aceM (c : Complex N) (value : Fibration N) (enum : List (Fin N) → List (Fin N))
    (s : State N) (A : Fin N) : State N :=
  let s1 := { s with ace_candidates := s.ace_candidates.erase A, aces := s.aces ++ [A] }
  let s2 := { s1 with mate_ := Function.update s1.mate_ A (A : Int) }
  processM c value enum s2 A

/-- One iteration of the graded main loop (lines 125-141) in machine arithmetic; `i` is the
oracle value. -/
def bodyM (c : Complex N) (value : Fibration N) (enum : List (Fin N) → List (Fin N))
    (i : Nat) (s : State N) : Except Err (State N) :=
  if s.coreducible.Nonempty then
    match extract s.coreducible i with
    | none => .error .emptyExtraction
    | some K => coreduceM c value enum s K
  else
    match extract s.ace_candidates i with
    | none => .error .emptyExtraction
    | some A => .ok (aceM c value enum s A)

/-- The graded main loop `while ( num_processed < N )` (lines 124-142) in machine
arithmetic, started at iteration number `t`. -/
def loopM (c : Complex N) (value : Fibration N) (enum : List (Fin N) → List (Fin N))
    (ord : Nat → Nat) : Nat → Nat → State N → Except Err (State N)
  | 0, _, s => if s.num_processed < (N : Int) then .error .outOfFuel else .ok s
  | fuel + 1, t, s =>
    if s.num_processed < (N : Int) then
      match bodyM c value enum (ord t) s with
      | .error e => .error e
      | .ok s1 => loopM c value enum ord fuel (t + 1) s1
    else .ok s

/-- The constructor `MorseMatching ( std::shared_ptr<Fibration> )` in machine arithmetic:
priorities are stored as `Integer`, and a chain returned by `bd` or `cbd` is enumerated in
the order `enum` gives it.  The initial pass uses only the size of `bd(x)`. -/
def gradedM (c : Complex N) (value : Fibration N) (enum : List (Fin N) → List (Fin N))
    (ord : Nat → Nat) : Except Err (State N) :=
  match initG c value with
  | .error e => .error e
  | .ok s => loopM c value enum ord N 0 s

/-- The state `s` with the priority of every processed cell `x` replaced by what the graded
`process` stores for it in `Integer`. -/
def regradeM (value : Fibration N) (s : State N) : State N :=
  setPriority s (fun x =>
    if x ∈ s.log then wrap (value x * (N : Int) + s.priority_ x) else s.priority_ x)

/-- The fibration on the triangle edge complex with grade `2^62` for the edge `5` and grade
0 for every other cell; it has the closure property. -/
def triangleHuge : Fibration 6 := fun x => if x = 5 then 4611686018427387904 else 0

/-- The fibration on the triangle edge complex with grade `6148914691236517205` for the
edge `5` and grade 0 for every other cell; it has the closure property. -/
def triangleCollide : Fibration 6 := fun x => if x = 5 then 6148914691236517205 else 0

/-- Seven cells: `tower` on `0,1,2,3`, and a cell `4` with boundary `{2,5,6}` where `5` and
`6` have no face.  Boundary and coboundary are inverse; the boundary of a boundary is not
zero. -/
def fan : Complex 7 where
  boundary := fun x =>
    if x = 2 then [0, 1] else if x = 3 then [2] else if x = 4 then [2, 5, 6] else []
  coboundary := fun x =>
    if x = 0 then [2] else if x = 1 then [2] else if x = 2 then [3, 4]
    else if x = 5 then [4] else if x = 6 then [4] else []
  boundary_nodup := by decide
  coboundary_nodup := by decide

/-! ## The effect of `touch` and `process` -/

theorem touch_mate (s : State N) (x : Fin N) : (touch s x).mate_ = s.mate_ := by
  simp only [touch]; split_ifs <;> rfl

theorem touch_priority (s : State N) (x : Fin N) : (touch s x).priority_ = s.priority_ := by
  simp only [touch]; split_ifs <;> rfl

theorem touch_num_processed (s : State N) (x : Fin N) :
    (touch s x).num_processed = s.num_processed := by
  simp only [touch]; split_ifs <;> rfl

theorem touch_log (s : State N) (x : Fin N) : (touch s x).log = s.log := by
  simp only [touch]; split_ifs <;> rfl

theorem touch_aces (s : State N) (x : Fin N) : (touch s x).aces = s.aces := by
  simp only [touch]; split_ifs <;> rfl

theorem touch_boundary_count (s : State N) (a x : Fin N) :
    (touch s a).boundary_count x
      = if x = a then s.boundary_count a - 1 else s.boundary_count x := by
  simp only [touch]
  by_cases h : x = a
  · subst h; simp only [if_true]; split_ifs <;> simp
  · simp only [if_neg h]; split_ifs <;> simp [Function.update_noteq h]

theorem touch_coreducible (s : State N) (a x : Fin N) :
    x ∈ (touch s a).coreducible ↔
      if x = a then
        (s.boundary_count a - 1 = 1 ∨ (s.boundary_count a - 1 ≠ 0 ∧ a ∈ s.coreducible))
      else x ∈ s.coreducible := by
  simp only [touch]
  by_cases h : x = a
  · subst h
    simp only [Function.update_same, if_true]
    split_ifs with h0 h1
    · simp [h0]
    · simp [h1]
    · simp [h0, h1]
  · simp only [Function.update_same, if_neg h]
    split_ifs <;> simp [h]

theorem touch_ace_candidates (s : State N) (a x : Fin N) :
    x ∈ (touch s a).ace_candidates ↔
      if x = a then (s.boundary_count a - 1 = 0 ∨ a ∈ s.ace_candidates)
      else x ∈ s.ace_candidates := by
  simp only [touch]
  by_cases h : x = a
  · subst h
    simp only [Function.update_same, if_true]
    split_ifs with h0 h1
    · simp [h0]
    · simp [h0]
    · simp [h0]
  · simp only [Function.update_same, if_neg h]
    split_ifs <;> simp [h]

theorem foldl_touch_mate (l : List (Fin N)) (s : State N) :
    (l.foldl touch s).mate_ = s.mate_ := by
  induction l generalizing s with
  | nil => rfl
  | cons a l ih => rw [List.foldl_cons, ih, touch_mate]

theorem foldl_touch_priority (l : List (Fin N)) (s : State N) :
    (l.foldl touch s).priority_ = s.priority_ := by
  induction l generalizing s with
  | nil => rfl
  | cons a l ih => rw [List.foldl_cons, ih, touch_priority]

theorem foldl_touch_num_processed (l : List (Fin N)) (s : State N) :
    (l.foldl touch s).num_processed = s.num_processed := by
  induction l generalizing s with
  | nil => rfl
  | cons a l ih => rw [List.foldl_cons, ih, touch_num_processed]

theorem foldl_touch_log (l : List (Fin N)) (s : State N) :
    (l.foldl touch s).log = s.log := by
  induction l generalizing s with
  | nil => rfl
  | cons a l ih => rw [List.foldl_cons, ih, touch_log]

theorem foldl_touch_aces (l : List (Fin N)) (s : State N) :
    (l.foldl touch s).aces = s.aces := by
  induction l generalizing s with
  | nil => rfl
  | cons a l ih => rw [List.foldl_cons, ih, touch_aces]

theorem foldl_touch_boundary_count (l : List (Fin N)) (hl : l.Nodup) (s : State N) (x : Fin N) :
    (l.foldl touch s).boundary_count x
      = s.boundary_count x - (if x ∈ l then 1 else 0) := by
  induction l generalizing s with
  | nil => simp
  | cons a l ih =>
    rw [List.foldl_cons, ih (List.nodup_cons.mp hl).2, touch_boundary_count]
    have ha := (List.nodup_cons.mp hl).1
    by_cases h : x = a
    · subst h; simp [ha]
    · simp [h]

theorem foldl_touch_coreducible (l : List (Fin N)) (hl : l.Nodup) (s : State N) (x : Fin N) :
    x ∈ (l.foldl touch s).coreducible ↔
      if x ∈ l then
        (s.boundary_count x - 1 = 1 ∨ (s.boundary_count x - 1 ≠ 0 ∧ x ∈ s.coreducible))
      else x ∈ s.coreducible := by
  induction l generalizing s with
  | nil => simp
  | cons a l ih =>
    rw [List.foldl_cons, ih (List.nodup_cons.mp hl).2, touch_boundary_count, touch_coreducible]
    have ha := (List.nodup_cons.mp hl).1
    by_cases h : x = a
    · subst h; simp [ha]
    · simp [h]

theorem foldl_touch_ace_candidates (l : List (Fin N)) (hl : l.Nodup) (s : State N) (x : Fin N) :
    x ∈ (l.foldl touch s).ace_candidates ↔
      if x ∈ l then (s.boundary_count x - 1 = 0 ∨ x ∈ s.ace_candidates)
      else x ∈ s.ace_candidates := by
  induction l generalizing s with
  | nil => simp
  | cons a l ih =>
    rw [List.foldl_cons, ih (List.nodup_cons.mp hl).2, touch_boundary_count,
      touch_ace_candidates]
    have ha := (List.nodup_cons.mp hl).1
    by_cases h : x = a
    · subst h; simp [ha]
    · simp [h]

theorem process_mate (c : Complex N) (s : State N) (y : Fin N) :
    (process c s y).mate_ = s.mate_ := by
  simp only [process, foldl_touch_mate]

theorem process_priority (c : Complex N) (s : State N) (y : Fin N) :
    (process c s y).priority_ = Function.update s.priority_ y s.num_processed := by
  simp only [process, foldl_touch_priority]

theorem process_num_processed (c : Complex N) (s : State N) (y : Fin N) :
    (process c s y).num_processed = s.num_processed + 1 := by
  simp only [process, foldl_touch_num_processed]

theorem process_log (c : Complex N) (s : State N) (y : Fin N) :
    (process c s y).log = s.log ++ [y] := by
  simp only [process, foldl_touch_log]

theorem process_aces (c : Complex N) (s : State N) (y : Fin N) :
    (process c s y).aces = s.aces := by
  simp only [process, foldl_touch_aces]

theorem process_boundary_count (c : Complex N) (s : State N) (y x : Fin N) :
    (process c s y).boundary_count x
      = s.boundary_count x - (if x ∈ c.coboundary y then 1 else 0) := by
  simp only [process]
  rw [foldl_touch_boundary_count _ (c.coboundary_nodup y)]

theorem process_coreducible (c : Complex N) (s : State N) (y x : Fin N) :
    x ∈ (process c s y).coreducible ↔
      if x ∈ c.coboundary y then
        (s.boundary_count x - 1 = 1 ∨
          (s.boundary_count x - 1 ≠ 0 ∧ x ∈ s.coreducible ∧ x ≠ y))
      else (x ∈ s.coreducible ∧ x ≠ y) := by
  simp only [process]
  rw [foldl_touch_coreducible _ (c.coboundary_nodup y)]
  simp only [Finset.mem_erase]
  split_ifs <;> tauto

theorem process_ace_candidates (c : Complex N) (s : State N) (y x : Fin N) :
    x ∈ (process c s y).ace_candidates ↔
      if x ∈ c.coboundary y then (s.boundary_count x - 1 = 0 ∨ (x ∈ s.ace_candidates ∧ x ≠ y))
      else (x ∈ s.ace_candidates ∧ x ≠ y) := by
  simp only [process]
  rw [foldl_touch_ace_candidates _ (c.coboundary_nodup y)]
  simp only [Finset.mem_erase]
  split_ifs <;> tauto

/-! ## Counting unprocessed faces -/

theorem countP_log_append (l : List (Fin N)) (hl : l.Nodup) (log : List (Fin N)) (y : Fin N)
    (hy : y ∉ log) :
    ((l.countP (fun z => decide (z ∉ log ++ [y])) : Nat) : Int)
      = (l.countP (fun z => decide (z ∉ log)) : Nat) - (if y ∈ l then 1 else 0) := by
  induction l with
  | nil => simp
  | cons a l ih =>
    have hnd := List.nodup_cons.mp hl
    rw [List.countP_cons, List.countP_cons]
    push_cast
    rw [ih hnd.2]
    by_cases h : a = y
    · subst h
      simp [hy, hnd.1]
    · have h' : y ≠ a := fun e => h e.symm
      by_cases ha : a ∈ log
      · simp [h, h', ha]
      · simp [h, h', ha]
        ring

theorem unprocessedFaces_process (c : Complex N) (s : State N) (y x : Fin N)
    (hy : y ∉ s.log) :
    (unprocessedFaces c (process c s y) x : Int)
      = unprocessedFaces c s x - (if y ∈ c.boundary x then 1 else 0) := by
  unfold unprocessedFaces
  rw [process_log]
  exact countP_log_append _ (c.boundary_nodup x) _ _ hy

theorem unprocessedFaces_pos (c : Complex N) (s : State N) (x y : Fin N)
    (hy : y ∈ c.boundary x) (hlog : y ∉ s.log) : 0 < unprocessedFaces c s x := by
  unfold unprocessedFaces
  rw [List.countP_pos_iff]
  exact ⟨y, hy, by simpa using hlog⟩

theorem unprocessedFaces_eq_zero (c : Complex N) (s : State N) (x : Fin N)
    (h : unprocessedFaces c s x = 0) : ∀ y ∈ c.boundary x, y ∈ s.log := by
  intro y hy
  by_contra hlog
  have := unprocessedFaces_pos c s x y hy hlog
  omega

/-! ## `process` keeps the invariant -/

theorem Core.congr {c : Complex N} {s s1 : State N} (h : Core c s)
    (hlog : s1.log = s.log) (hnum : s1.num_processed = s.num_processed)
    (hbc : s1.boundary_count = s.boundary_count) (hprio : s1.priority_ = s.priority_) :
    Core c s1 where
  nodup := by rw [hlog]; exact h.nodup
  count := by rw [hlog, hnum]; exact h.count
  closed := by rw [hlog]; exact h.closed
  bc := by
    intro x
    have := h.bc x
    unfold unprocessedFaces at this ⊢
    rw [hlog, hbc]; exact this
  prio_range := by rw [hlog, hnum, hprio]; exact h.prio_range
  prio_inj := by rw [hlog, hprio]; exact h.prio_inj
  prio_face := by rw [hlog, hprio]; exact h.prio_face

theorem process_core (c : Complex N) (hinv : Inverse c) (s : State N) (y : Fin N)
    (h : Core c s) (hy : y ∉ s.log) (hfaces : ∀ z ∈ c.boundary y, z ∈ s.log) :
    Core c (process c s y) where
  nodup := by
    rw [process_log]
    exact List.Nodup.append h.nodup (List.nodup_singleton y) (by simpa using hy)
  count := by
    rw [process_log, process_num_processed, h.count]
    simp
  closed := by
    intro x hx z hz
    rw [process_log, List.mem_append, List.mem_singleton] at hx ⊢
    rcases hx with hx | hx
    · exact Or.inl (h.closed x hx z hz)
    · subst hx; exact Or.inl (hfaces z hz)
  bc := by
    intro x
    rw [process_boundary_count, unprocessedFaces_process c s y x hy, h.bc x]
    by_cases hx : y ∈ c.boundary x
    · simp [hx, (hinv y x).mp hx]
    · have : x ∉ c.coboundary y := fun e => hx ((hinv y x).mpr e)
      simp [hx, this]
  prio_range := by
    intro x hx
    rw [process_log, List.mem_append, List.mem_singleton] at hx
    rw [process_priority, process_num_processed]
    have hn : (0 : Int) ≤ s.num_processed := by rw [h.count]; exact Int.natCast_nonneg _
    rcases hx with hx | hx
    · have hne : x ≠ y := fun e => hy (e ▸ hx)
      rw [Function.update_noteq hne]
      have := h.prio_range x hx
      omega
    · subst hx
      rw [Function.update_same]
      omega
  prio_inj := by
    intro x hx z hz
    rw [process_log, List.mem_append, List.mem_singleton] at hx hz
    rw [process_priority]
    rcases hx with hx | hx <;> rcases hz with hz | hz
    · have hne : x ≠ y := fun e => hy (e ▸ hx)
      have hne1 : z ≠ y := fun e => hy (e ▸ hz)
      rw [Function.update_noteq hne, Function.update_noteq hne1]
      exact h.prio_inj x hx z hz
    · subst hz
      have hne : x ≠ z := fun e => hy (e ▸ hx)
      rw [Function.update_noteq hne, Function.update_same]
      have := h.prio_range x hx
      intro e; omega
    · subst hx
      have hne : z ≠ x := fun e => hy (e ▸ hz)
      rw [Function.update_noteq hne, Function.update_same]
      have := h.prio_range z hz
      intro e; omega
    · intro _; rw [hx, hz]
  prio_face := by
    intro x hx z hz
    rw [process_log, List.mem_append, List.mem_singleton] at hx
    rw [process_priority]
    rcases hx with hx | hx
    · have hzl := h.closed x hx z hz
      have hne : x ≠ y := fun e => hy (e ▸ hx)
      have hne1 : z ≠ y := fun e => hy (e ▸ hzl)
      rw [Function.update_noteq hne, Function.update_noteq hne1]
      exact h.prio_face x hx z hz
    · subst hx
      have hzl := hfaces z hz
      have hne1 : z ≠ x := fun e => hy (e ▸ hzl)
      rw [Function.update_noteq hne1, Function.update_same]
      exact (h.prio_range z hzl).2

theorem process_sets (c : Complex N) (hinv : Inverse c) (s : State N) (y : Fin N)
    (h : Core c s) (hy : y ∉ s.log) (hfaces : ∀ z ∈ c.boundary y, z ∈ s.log)
    (hs : ∀ x, x ≠ y → Sets s x ∨ (x ∈ c.coboundary y ∧ s.boundary_count x = 1)) :
    ∀ x, Sets (process c s y) x := by
  intro x
  have hyy : y ∉ c.coboundary y := fun e => hy (hfaces y ((hinv y y).mpr e))
  unfold Sets
  rw [process_coreducible, process_ace_candidates, process_boundary_count, process_log,
    List.mem_append, List.mem_singleton]
  by_cases hxy : x = y
  · subst hxy
    simp [hyy]
  · by_cases hx : x ∈ c.coboundary y
    · have hyx : y ∈ c.boundary x := (hinv y x).mpr hx
      have hxl : x ∉ s.log := fun e => hy (h.closed x e y hyx)
      have hpos := unprocessedFaces_pos c s x y hyx hy
      have hbc := h.bc x
      simp only [hx, if_true, hxy, or_false, hxl, not_false_eq_true, true_and, and_true,
        ne_eq]
      rcases hs x hxy with hS | hS
      · obtain ⟨h1, h2⟩ := hS
        simp only [hxl, not_false_eq_true, true_and] at h1 h2
        rw [h1, h2]
        constructor <;> constructor <;> intro hh <;> omega
      · have := hS.2
        constructor <;> constructor <;> intro hh <;> omega
    · rcases hs x hxy with hS | hS
      · obtain ⟨h1, h2⟩ := hS
        simp only [hx, if_false, hxy, or_false, not_false_eq_true, and_true, ne_eq, sub_zero]
        exact ⟨h1, h2⟩
      · exact absurd hS.1 hx

/-! ## The `else` branch keeps the invariant -/

theorem cast_ne_unset (x : Fin N) : ((x : Nat) : Int) ≠ -1 := by
  have := Int.natCast_nonneg (x : Nat)
  omega

theorem cast_inj {x y : Fin N} (h : ((x : Nat) : Int) = ((y : Nat) : Int)) : x = y := by
  apply Fin.ext
  exact_mod_cast h

theorem ace_inv (c : Complex N) (hinv : Inverse c) (s : State N) (A : Fin N)
    (h : Inv c s) (hA : A ∈ s.ace_candidates) : Inv c (ace c s A) := by
  obtain ⟨hAlog, hAbc⟩ := ((h.sets A).2).mp hA
  have hfaces : ∀ z ∈ c.boundary A, z ∈ s.log := by
    apply unprocessedFaces_eq_zero
    have := h.core.bc A
    omega
  let s2 : State N :=
    { s with ace_candidates := s.ace_candidates.erase A, aces := s.aces ++ [A],
             mate_ := Function.update s.mate_ A (A : Int) }
  have hs2 : ace c s A = process c s2 A := rfl
  have hcore2 : Core c s2 := h.core.congr rfl rfl rfl rfl
  have hsets2 : ∀ x, x ≠ A → Sets s2 x ∨ (x ∈ c.coboundary A ∧ s2.boundary_count x = 1) := by
    intro x hx
    left
    have := h.sets x
    unfold Sets at this ⊢
    simpa [s2, hx] using this
  rw [hs2]
  refine ⟨process_core c hinv s2 A hcore2 hAlog hfaces,
    process_sets c hinv s2 A hcore2 hAlog hfaces hsets2, ?_⟩
  constructor
  · intro x
    rw [process_log, process_mate, List.mem_append, List.mem_singleton]
    show x ∈ s.log ∨ x = A ↔ Function.update s.mate_ A (A : Int) x ≠ -1
    by_cases hx : x = A
    · subst hx
      simp [cast_ne_unset]
    · rw [Function.update_noteq hx]
      simpa [hx] using h.paired.set x
  · intro x hx
    rw [process_log, List.mem_append, List.mem_singleton] at hx
    simp only [process_log, process_mate, process_priority, process_aces, List.mem_append,
      List.mem_singleton]
    show ∃ y, (y ∈ s.log ∨ y = A) ∧ Function.update s.mate_ A (A : Int) x = (y : Int) ∧
      Function.update s.mate_ A (A : Int) y = (x : Int) ∧
      ((x = y ∧ (x ∈ s.aces ∨ x = A)) ∨
       (x ∈ c.boundary y ∧ Function.update s.priority_ A s.num_processed y
          = Function.update s.priority_ A s.num_processed x + 1) ∨
       (y ∈ c.boundary x ∧ Function.update s.priority_ A s.num_processed x
          = Function.update s.priority_ A s.num_processed y + 1))
    rcases hx with hx | hx
    · obtain ⟨y, hy, h1, h2, h3⟩ := h.paired.pair x hx
      have hxA : x ≠ A := fun e => hAlog (e ▸ hx)
      have hyA : y ≠ A := fun e => hAlog (e ▸ hy)
      refine ⟨y, Or.inl hy, ?_, ?_, ?_⟩
      · rw [Function.update_noteq hxA]; exact h1
      · rw [Function.update_noteq hyA]; exact h2
      · rw [Function.update_noteq hxA, Function.update_noteq hyA]
        rcases h3 with h3 | h3 | h3
        · exact Or.inl ⟨h3.1, Or.inl h3.2⟩
        · exact Or.inr (Or.inl h3)
        · exact Or.inr (Or.inr h3)
    · subst hx
      exact ⟨x, Or.inr rfl, by simp, by simp, Or.inl ⟨rfl, Or.inr rfl⟩⟩
  · intro x hx
    rw [process_aces] at hx
    rw [process_log, process_mate, List.mem_append, List.mem_singleton]
    have hx' : x ∈ s.aces ∨ x = A := by simpa [s2] using hx
    show (x ∈ s.log ∨ x = A) ∧ Function.update s.mate_ A (A : Int) x = (x : Int)
    rcases hx' with hx' | hx'
    · have := h.paired.aces x hx'
      have hxA : x ≠ A := fun e => hAlog (e ▸ this.1)
      rw [Function.update_noteq hxA]
      exact ⟨Or.inl this.1, this.2⟩
    · subst hx'
      simp

/-! ## The coreduction branch keeps the invariant -/

theorem eq_of_countP_eq_one {α : Type} (l : List α) (p : α → Bool) (h : l.countP p = 1)
    (a b : α) (ha : a ∈ l) (hpa : p a = true) (hb : b ∈ l) (hpb : p b = true) : a = b := by
  rw [List.countP_eq_length_filter, List.length_eq_one] at h
  obtain ⟨q, hq⟩ := h
  have h1 : a ∈ l.filter p := List.mem_filter.mpr ⟨ha, hpa⟩
  have h2 : b ∈ l.filter p := List.mem_filter.mpr ⟨hb, hpb⟩
  rw [hq, List.mem_singleton] at h1 h2
  rw [h1, h2]

theorem exists_ne_of_even (l : List (Fin N)) (hl : l.Nodup) (a : Fin N) (ha : a ∈ l)
    (heven : l.length % 2 = 0) : ∃ b ∈ l, b ≠ a := by
  by_contra hcon
  push_neg at hcon
  have hsub : l.toFinset ⊆ {a} := by
    intro b hb
    rw [List.mem_toFinset] at hb
    rw [Finset.mem_singleton]
    exact hcon b hb
  have hcard := Finset.card_le_card hsub
  rw [List.toFinset_card_of_nodup hl, Finset.card_singleton] at hcard
  have hpos : 0 < l.length := List.length_pos_of_mem ha
  omega

/-- What the coreduction branch finds when `K` is coreducible: the search for `Q` returns
the only unprocessed face of `K`, and every face of `Q` has been processed. -/
theorem coreducible_face (c : Complex N) (hsq : BoundarySquaredZero c) (s : State N)
    (K : Fin N) (h : Inv c s) (hK : K ∈ s.coreducible) :
    ∃ Q, (c.boundary K).find? (fun x => decide (s.mate_ x = -1)) = some Q ∧
      Q ∈ c.boundary K ∧ Q ∉ s.log ∧ (∀ z ∈ c.boundary K, z ∉ s.log → z = Q) ∧
      (∀ z ∈ c.boundary Q, z ∈ s.log) ∧ Q ≠ K ∧ K ∉ s.log := by
  obtain ⟨hKlog, hKbc⟩ := ((h.sets K).1).mp hK
  have hcnt : unprocessedFaces c s K = 1 := by
    have := h.core.bc K
    omega
  have hunset : ∀ x, s.mate_ x = -1 ↔ x ∉ s.log := by
    intro x
    have := h.paired.set x
    tauto
  cases hfind : (c.boundary K).find? (fun x => decide (s.mate_ x = -1)) with
  | none =>
    exfalso
    rw [List.find?_eq_none] at hfind
    have hzero : unprocessedFaces c s K = 0 := by
      unfold unprocessedFaces
      rw [List.countP_eq_zero]
      intro x hx
      have := hfind x hx
      simp only [decide_eq_true_eq] at this
      simpa using (fun e => this ((hunset x).mpr e))
    omega
  | some Q =>
    have hQmem : Q ∈ c.boundary K := List.mem_of_find?_eq_some hfind
    have hQlog : Q ∉ s.log := by
      have := List.find?_some hfind
      simp only [decide_eq_true_eq] at this
      exact (hunset Q).mp this
    have huniq : ∀ z ∈ c.boundary K, z ∉ s.log → z = Q := by
      intro z hz hzl
      exact eq_of_countP_eq_one _ _ hcnt z Q hz (by simpa using hzl) hQmem (by simpa using hQlog)
    have hQfaces : ∀ z ∈ c.boundary Q, z ∈ s.log := by
      intro z hz
      by_contra hzl
      have hmem : Q ∈ (c.boundary K).filter (fun y => decide (z ∈ c.boundary y)) :=
        List.mem_filter.mpr ⟨hQmem, by simpa using hz⟩
      obtain ⟨y1, hy1, hne⟩ := exists_ne_of_even _ ((c.boundary_nodup K).filter _) Q hmem (hsq K z)
      rw [List.mem_filter] at hy1
      have hy1log : y1 ∈ s.log := by
        by_contra e
        exact hne (huniq y1 hy1.1 e)
      exact hzl (h.core.closed y1 hy1log z (by simpa using hy1.2))
    refine ⟨Q, rfl, hQmem, hQlog, huniq, hQfaces, ?_, hKlog⟩
    intro e
    subst e
    exact hQlog (hQfaces Q hQmem)

theorem coreduce_inv (c : Complex N) (hinv : Inverse c) (hsq : BoundarySquaredZero c)
    (s : State N) (K : Fin N) (h : Inv c s) (hK : K ∈ s.coreducible) :
    ∃ s1, coreduce c s K = .ok s1 ∧ Inv c s1 := by
  obtain ⟨Q, hfind, hQmem, hQlog, huniq, hQfaces, hQK, hKlog⟩ :=
    coreducible_face c hsq s K h hK
  have hKbc : s.boundary_count K = 1 := (((h.sets K).1).mp hK).2
  let s3 : State N :=
    { s with coreducible := s.coreducible.erase K,
             mate_ := Function.update (Function.update s.mate_ K (Q : Int)) Q (K : Int) }
  have hco : coreduce c s K = .ok (process c (process c s3 Q) K) := by
    simp only [coreduce, hfind]
  have hcore3 : Core c s3 := h.core.congr rfl rfl rfl rfl
  have hsets3 : ∀ x, x ≠ Q → Sets s3 x ∨ (x ∈ c.coboundary Q ∧ s3.boundary_count x = 1) := by
    intro x _
    by_cases hx : x = K
    · subst hx
      exact Or.inr ⟨(hinv Q x).mp hQmem, hKbc⟩
    · left
      have := h.sets x
      unfold Sets at this ⊢
      simpa [s3, hx] using this
  have hcore4 := process_core c hinv s3 Q hcore3 hQlog hQfaces
  have hsets4 := process_sets c hinv s3 Q hcore3 hQlog hQfaces hsets3
  have hKlog4 : K ∉ (process c s3 Q).log := by
    rw [process_log, List.mem_append, List.mem_singleton]
    intro e
    rcases e with e | e
    · exact hKlog e
    · exact hQK e.symm
  have hKfaces4 : ∀ z ∈ c.boundary K, z ∈ (process c s3 Q).log := by
    intro z hz
    rw [process_log, List.mem_append, List.mem_singleton]
    by_cases hzl : z ∈ s.log
    · exact Or.inl hzl
    · exact Or.inr (huniq z hz hzl)
  refine ⟨_, hco, process_core c hinv _ K hcore4 hKlog4 hKfaces4,
    process_sets c hinv _ K hcore4 hKlog4 hKfaces4 (fun x _ => Or.inl (hsets4 x)), ?_⟩
  have hnp : (process c s3 Q).num_processed = s.num_processed + 1 := process_num_processed c s3 Q
  have hprioQ : (process c (process c s3 Q) K).priority_ Q = s.num_processed := by
    rw [process_priority, Function.update_noteq hQK, process_priority, Function.update_same]
  have hprioK : (process c (process c s3 Q) K).priority_ K = s.num_processed + 1 := by
    rw [process_priority, Function.update_same, hnp]
  have hprio : ∀ x, x ≠ Q → x ≠ K →
      (process c (process c s3 Q) K).priority_ x = s.priority_ x := by
    intro x h1 h2
    rw [process_priority, Function.update_noteq h2, process_priority, Function.update_noteq h1]
  have hmateQ : (process c (process c s3 Q) K).mate_ Q = (K : Int) := by
    rw [process_mate, process_mate]
    show Function.update (Function.update s.mate_ K (Q : Int)) Q (K : Int) Q = _
    rw [Function.update_same]
  have hmateK : (process c (process c s3 Q) K).mate_ K = (Q : Int) := by
    rw [process_mate, process_mate]
    show Function.update (Function.update s.mate_ K (Q : Int)) Q (K : Int) K = _
    rw [Function.update_noteq (Ne.symm hQK), Function.update_same]
  have hmate : ∀ x, x ≠ Q → x ≠ K → (process c (process c s3 Q) K).mate_ x = s.mate_ x := by
    intro x h1 h2
    rw [process_mate, process_mate]
    show Function.update (Function.update s.mate_ K (Q : Int)) Q (K : Int) x = _
    rw [Function.update_noteq h1, Function.update_noteq h2]
  have hlog : ∀ x, x ∈ (process c (process c s3 Q) K).log ↔ x ∈ s.log ∨ x = Q ∨ x = K := by
    intro x
    rw [process_log, process_log]
    simp only [List.mem_append, List.mem_singleton]
    show (x ∈ s.log ∨ x = Q) ∨ x = K ↔ _
    tauto
  have haces : (process c (process c s3 Q) K).aces = s.aces := by
    rw [process_aces, process_aces]
  constructor
  · intro x
    rw [hlog]
    by_cases h1 : x = Q
    · subst h1
      simp [hmateQ, cast_ne_unset]
    · by_cases h2 : x = K
      · subst h2
        simp [hmateK, cast_ne_unset]
      · rw [hmate x h1 h2]
        simpa [h1, h2] using h.paired.set x
  · intro x hx
    rw [hlog] at hx
    rcases hx with hx | hx | hx
    · obtain ⟨y, hy, e1, e2, e3⟩ := h.paired.pair x hx
      have hxQ : x ≠ Q := fun e => hQlog (e ▸ hx)
      have hxK : x ≠ K := fun e => hKlog (e ▸ hx)
      have hyQ : y ≠ Q := fun e => hQlog (e ▸ hy)
      have hyK : y ≠ K := fun e => hKlog (e ▸ hy)
      refine ⟨y, (hlog y).mpr (Or.inl hy), ?_, ?_, ?_⟩
      · rw [hmate x hxQ hxK]; exact e1
      · rw [hmate y hyQ hyK]; exact e2
      · rw [hprio x hxQ hxK, hprio y hyQ hyK, haces]; exact e3
    · subst hx
      refine ⟨K, (hlog K).mpr (Or.inr (Or.inr rfl)), hmateQ, hmateK, Or.inr (Or.inl ⟨hQmem, ?_⟩)⟩
      rw [hprioQ, hprioK]
    · subst hx
      refine ⟨Q, (hlog Q).mpr (Or.inr (Or.inl rfl)), hmateK, hmateQ, Or.inr (Or.inr ⟨hQmem, ?_⟩)⟩
      rw [hprioQ, hprioK]
  · intro x hx
    rw [haces] at hx
    have := h.paired.aces x hx
    have hxQ : x ≠ Q := fun e => hQlog (e ▸ this.1)
    have hxK : x ≠ K := fun e => hKlog (e ▸ this.1)
    rw [hlog, hmate x hxQ hxK]
    exact ⟨Or.inl this.1, this.2⟩

/-! ## Extraction from a working set -/

theorem mem_members (S : Finset (Fin N)) (x : Fin N) : x ∈ members S ↔ x ∈ S := by
  simp [members, List.mem_finRange]

theorem extract_mem (S : Finset (Fin N)) (i : Nat) (K : Fin N) (h : extract S i = some K) :
    K ∈ S :=
  (mem_members S K).mp (List.getElem?_mem h)

theorem extract_some (S : Finset (Fin N)) (i : Nat) (h : S.Nonempty) :
    ∃ K, extract S i = some K := by
  obtain ⟨x, hx⟩ := h
  have hpos : 0 < (members S).length := List.length_pos_of_mem ((mem_members S x).mpr hx)
  exact ⟨_, List.getElem?_eq_getElem (Nat.mod_lt i hpos)⟩

/-- Every member of a working set is the one extracted for some oracle value. -/
theorem extract_any (S : Finset (Fin N)) (K : Fin N) (h : K ∈ S) :
    ∃ i, extract S i = some K := by
  obtain ⟨n, hn, e⟩ := List.mem_iff_getElem.mp ((mem_members S K).mpr h)
  refine ⟨n, ?_⟩
  unfold extract
  rw [Nat.mod_eq_of_lt hn, List.getElem?_eq_getElem hn, e]

/-! ## The classification loop -/

theorem classify_mate (s : State N) (a : Fin N) (n : Int) : (classify s a n).mate_ = s.mate_ := by
  simp only [classify]; split_ifs <;> rfl

theorem classify_priority (s : State N) (a : Fin N) (n : Int) :
    (classify s a n).priority_ = s.priority_ := by
  simp only [classify]; split_ifs <;> rfl

theorem classify_num_processed (s : State N) (a : Fin N) (n : Int) :
    (classify s a n).num_processed = s.num_processed := by
  simp only [classify]; split_ifs <;> rfl

theorem classify_log (s : State N) (a : Fin N) (n : Int) : (classify s a n).log = s.log := by
  simp only [classify]; split_ifs <;> rfl

theorem classify_aces (s : State N) (a : Fin N) (n : Int) : (classify s a n).aces = s.aces := by
  simp only [classify]; split_ifs <;> rfl

theorem classify_boundary_count (s : State N) (a : Fin N) (n : Int) (x : Fin N) :
    (classify s a n).boundary_count x = if x = a then n else s.boundary_count x := by
  simp only [classify]
  by_cases h : x = a
  · subst h; simp only [if_true]; split_ifs <;> simp
  · simp only [if_neg h]; split_ifs <;> simp [Function.update_noteq h]

theorem classify_coreducible (s : State N) (a : Fin N) (n : Int) (x : Fin N) :
    x ∈ (classify s a n).coreducible ↔ x ∈ s.coreducible ∨ (x = a ∧ n = 1) := by
  simp only [classify, Function.update_same]
  split_ifs with h0 h1
  · simp [h0]
  · simp [h1, or_comm]
  · simp [h1]

theorem classify_ace_candidates (s : State N) (a : Fin N) (n : Int) (x : Fin N) :
    x ∈ (classify s a n).ace_candidates ↔ x ∈ s.ace_candidates ∨ (x = a ∧ n = 0) := by
  simp only [classify, Function.update_same]
  split_ifs with h0 h1
  · simp [h0, or_comm]
  · simp [h0]
  · simp [h0]

/-- The state after classifying the cells of `l`, the boundary count of `x` being `f x`. -/
theorem foldl_classify (f : Fin N → Int) (l : List (Fin N)) (s : State N) :
    let r := l.foldl (fun s x => classify s x (f x)) s
    r.mate_ = s.mate_ ∧ r.priority_ = s.priority_ ∧ r.num_processed = s.num_processed ∧
    r.log = s.log ∧ r.aces = s.aces ∧
    (∀ x, r.boundary_count x = if x ∈ l then f x else s.boundary_count x) ∧
    (∀ x, x ∈ r.coreducible ↔ x ∈ s.coreducible ∨ (x ∈ l ∧ f x = 1)) ∧
    (∀ x, x ∈ r.ace_candidates ↔ x ∈ s.ace_candidates ∨ (x ∈ l ∧ f x = 0)) := by
  induction l generalizing s with
  | nil => simp
  | cons a l ih =>
    obtain ⟨h1, h2, h3, h4, h5, h6, h7, h8⟩ := ih (classify s a (f a))
    simp only [List.foldl_cons]
    refine ⟨by rw [h1, classify_mate], by rw [h2, classify_priority],
      by rw [h3, classify_num_processed], by rw [h4, classify_log], by rw [h5, classify_aces],
      ?_, ?_, ?_⟩
    · intro x
      rw [h6, classify_boundary_count]
      by_cases hx : x = a
      · subst hx; simp
      · simp [hx]
    · intro x
      rw [h7, classify_coreducible]
      by_cases hx : x = a
      · subst hx; simp; tauto
      · simp [hx]
    · intro x
      rw [h8, classify_ace_candidates]
      by_cases hx : x = a
      · subst hx; simp; tauto
      · simp [hx]

theorem init_inv (c : Complex N) : Inv c (init c) := by
  obtain ⟨h1, h2, h3, h4, h5, h6, h7, h8⟩ :=
    foldl_classify (fun x => ((c.boundary x).length : Int)) (List.finRange N) (start N)
  simp only [List.mem_finRange, if_true, true_and] at h6 h7 h8
  have hlog : (init c).log = [] := h4
  have hcnt : ∀ x, unprocessedFaces c (init c) x = (c.boundary x).length := by
    intro x
    unfold unprocessedFaces
    rw [hlog]
    simp
  refine ⟨⟨?_, ?_, ?_, ?_, ?_, ?_, ?_⟩, ?_, ⟨?_, ?_, ?_⟩⟩
  · rw [hlog]; exact List.nodup_nil
  · rw [hlog]; exact h3
  · rw [hlog]; intro x hx; cases hx
  · intro x; rw [hcnt]; exact h6 x
  · rw [hlog]; intro x hx; cases hx
  · rw [hlog]; intro x hx; cases hx
  · rw [hlog]; intro x hx; cases hx
  · intro x
    have e6 : (init c).boundary_count x = ((c.boundary x).length : Int) := h6 x
    have e7 : x ∈ (init c).coreducible ↔ _ := h7 x
    have e8 : x ∈ (init c).ace_candidates ↔ _ := h8 x
    unfold Sets
    rw [e6, e7, e8, hlog]
    simp [start]
  · intro x
    have e1 : (init c).mate_ = (start N).mate_ := h1
    rw [hlog, e1]
    simp [start]
  · rw [hlog]; intro x hx; cases hx
  · have e5 : (init c).aces = [] := h5
    rw [e5]; intro x hx; cases hx

/-! ## Progress and termination of the plain main loop -/

theorem log_length_le (l : List (Fin N)) (h : l.Nodup) : l.length ≤ N := by
  have := Finset.card_le_univ l.toFinset
  rwa [List.toFinset_card_of_nodup h, Fintype.card_fin] at this

theorem exists_not_mem_log (l : List (Fin N)) (h : l.length < N) : ∃ x, x ∉ l := by
  by_contra hcon
  push_neg at hcon
  have hsub : (Finset.univ : Finset (Fin N)) ⊆ l.toFinset := fun x _ => List.mem_toFinset.mpr (hcon x)
  have h1 := Finset.card_le_card hsub
  have h2 := List.toFinset_card_le l
  rw [Finset.card_univ, Fintype.card_fin] at h1
  omega

theorem mem_log_of_length (l : List (Fin N)) (h : l.Nodup) (hlen : l.length = N) :
    ∀ x, x ∈ l := by
  intro x
  have hcard : l.toFinset.card = Fintype.card (Fin N) := by
    rw [List.toFinset_card_of_nodup h, Fintype.card_fin, hlen]
  have := Finset.eq_univ_of_card _ hcard
  rw [← List.mem_toFinset, this]
  exact Finset.mem_univ x

theorem Inv.num_processed_le {c : Complex N} {s : State N} (h : Inv c s) :
    s.num_processed ≤ (N : Int) := by
  rw [h.core.count]
  exact_mod_cast log_length_le s.log h.core.nodup

/-- As long as a cell is unprocessed, an unprocessed cell of least dimension is an ace
candidate. -/
theorem ace_candidates_nonempty (c : Complex N) (dim : Fin N → Nat) (hdim : Dimensioned c dim)
    (s : State N) (h : Inv c s) (hlt : s.num_processed < (N : Int)) :
    s.ace_candidates.Nonempty := by
  have hlen : s.log.length < N := by
    have := h.core.count
    omega
  obtain ⟨x0, hx0⟩ := exists_not_mem_log s.log hlen
  have hne : (Finset.univ.filter (fun x : Fin N => x ∉ s.log)).Nonempty :=
    ⟨x0, by simp [hx0]⟩
  obtain ⟨x, hx, hmin⟩ := Finset.exists_min_image _ dim hne
  simp only [Finset.mem_filter, Finset.mem_univ, true_and] at hx hmin
  have hfaces : ∀ z ∈ c.boundary x, z ∈ s.log := by
    intro z hz
    by_contra hzl
    have h1 := hmin z hzl
    have h2 := hdim z x hz
    omega
  have hzero : unprocessedFaces c s x = 0 := by
    unfold unprocessedFaces
    rw [List.countP_eq_zero]
    intro z hz
    simpa using hfaces z hz
  refine ⟨x, ((h.sets x).2).mpr ⟨hx, ?_⟩⟩
  rw [h.core.bc x, hzero]
  rfl

theorem ace_num_processed (c : Complex N) (s : State N) (A : Fin N) :
    (ace c s A).num_processed = s.num_processed + 1 := by
  simp only [ace, process_num_processed]

theorem coreduce_num_processed (c : Complex N) (s s1 : State N) (K : Fin N)
    (h : coreduce c s K = .ok s1) : s1.num_processed = s.num_processed + 2 := by
  simp only [coreduce] at h
  split at h
  · cases h
  · injection h with h
    rw [← h, process_num_processed, process_num_processed]
    ring

theorem body_num_processed (c : Complex N) (i : Nat) (s s1 : State N)
    (h : body c i s = .ok s1) : s.num_processed < s1.num_processed := by
  simp only [body] at h
  split_ifs at h
  · split at h
    · cases h
    · rw [coreduce_num_processed c s s1 _ h]; omega
  · split at h
    · cases h
    · injection h with h
      rw [← h, ace_num_processed]; omega

theorem body_inv (c : Complex N) (dim : Fin N → Nat) (hwf : WellFormed c dim) (i : Nat)
    (s : State N) (h : Inv c s) (hlt : s.num_processed < (N : Int)) :
    ∃ s1, body c i s = .ok s1 ∧ Inv c s1 := by
  unfold body
  split_ifs with hne
  · obtain ⟨K, hK⟩ := extract_some s.coreducible i hne
    rw [hK]
    exact coreduce_inv c hwf.inverse hwf.squared s K h (extract_mem _ _ _ hK)
  · obtain ⟨A, hA⟩ := extract_some s.ace_candidates i
      (ace_candidates_nonempty c dim hwf.dimension s h hlt)
    rw [hA]
    exact ⟨_, rfl, ace_inv c hwf.inverse s A h (extract_mem _ _ _ hA)⟩

theorem loop_inv (c : Complex N) (dim : Fin N → Nat) (hwf : WellFormed c dim)
    (ord : Nat → Nat) (fuel : Nat) :
    ∀ (t : Nat) (s : State N), Inv c s → (N : Int) ≤ s.num_processed + fuel →
      ∃ s1, loop c ord fuel t s = .ok s1 ∧ Inv c s1 ∧ s1.num_processed = (N : Int) := by
  induction fuel with
  | zero =>
    intro t s h hfuel
    have hle := h.num_processed_le
    have hnot : ¬ s.num_processed < (N : Int) := by push_cast at hfuel; omega
    refine ⟨s, by simp only [loop, if_neg hnot], h, by omega⟩
  | succ fuel ih =>
    intro t s h hfuel
    have hle := h.num_processed_le
    by_cases hlt : s.num_processed < (N : Int)
    · obtain ⟨s1, hb, h1⟩ := body_inv c dim hwf (ord t) s h hlt
      have hnp := body_num_processed c (ord t) s s1 hb
      obtain ⟨s2, hl, h2, hN⟩ := ih (t + 1) s1 h1 (by push_cast at hfuel; omega)
      refine ⟨s2, ?_, h2, hN⟩
      simp only [loop, if_pos hlt, hb]
      exact hl
    · exact ⟨s, by simp only [loop, if_neg hlt], h, by omega⟩

/-- On a well-formed complex the plain constructor returns, in a state that satisfies the
loop invariant and in which all `N` cells are processed. -/
theorem plain_inv (c : Complex N) (dim : Fin N → Nat) (hwf : WellFormed c dim)
    (ord : Nat → Nat) :
    ∃ s, plain c ord = .ok s ∧ Inv c s ∧ s.num_processed = (N : Int) ∧ ∀ x, x ∈ s.log := by
  obtain ⟨s, h1, h2, h3⟩ := loop_inv c dim hwf ord N 0 (init c) (init_inv c) (by
    have := (init_inv c).core.count
    rw [this]
    have := Int.natCast_nonneg (init c).log.length
    omega)
  refine ⟨s, h1, h2, h3, mem_log_of_length s.log h2.core.nodup ?_⟩
  have := h2.core.count
  omega

/-- On a well-formed complex the condition of the plain main loop is always evaluated in a
state that satisfies the loop invariant. -/
theorem headState_inv (c : Complex N) (dim : Fin N → Nat) (hwf : WellFormed c dim)
    (ord : Nat → Nat) (t : Nat) : ∃ s, headState c ord t = .ok s ∧ Inv c s := by
  induction t with
  | zero => exact ⟨init c, rfl, init_inv c⟩
  | succ t ih =>
    obtain ⟨s, hs, h⟩ := ih
    simp only [headState, hs]
    split_ifs with hlt
    · exact body_inv c dim hwf (ord t) s h hlt
    · exact ⟨s, rfl, h⟩

/-! ## The graded constructor runs the plain one on the restricted complex -/

theorem bdLoop_ok (value : Fibration N) (xv : Int) (l : List (Fin N))
    (h : ∀ y ∈ l, value y ≤ xv) (acc : List (Fin N)) :
    bdLoop value xv l acc = .ok (acc ++ l.filter (fun y => decide (xv = value y))) := by
  induction l generalizing acc with
  | nil => simp [bdLoop]
  | cons a l ih =>
    have ha : ¬ value a > xv := by
      have := h a (List.mem_cons_self a l)
      omega
    have hl : ∀ y ∈ l, value y ≤ xv := fun y hy => h y (List.mem_cons_of_mem a hy)
    simp only [bdLoop, if_neg ha]
    by_cases he : xv = value a
    · rw [if_pos he, ih hl, List.filter_cons_of_pos (by simpa using he)]
      simp
    · rw [if_neg he, ih hl, List.filter_cons_of_neg (by simpa using he)]

theorem bdLoop_error (value : Fibration N) (xv : Int) (l : List (Fin N))
    (h : ∃ y ∈ l, value y > xv) (acc : List (Fin N)) :
    bdLoop value xv l acc = .error .closureViolation := by
  induction l generalizing acc with
  | nil => obtain ⟨y, hy, _⟩ := h; cases hy
  | cons a l ih =>
    by_cases ha : value a > xv
    · simp only [bdLoop, if_pos ha]
    · have hl : ∃ y ∈ l, value y > xv := by
        obtain ⟨y, hy, hgt⟩ := h
        rcases List.mem_cons.mp hy with e | e
        · subst e; exact absurd hgt ha
        · exact ⟨y, e, hgt⟩
      simp only [bdLoop, if_neg ha]
      split_ifs
      · exact ih hl _
      · exact ih hl _

theorem bd_ok (c : Complex N) (value : Fibration N) (x : Fin N)
    (h : ∀ y ∈ c.boundary x, value y ≤ value x) :
    bd c value x = .ok ((restrict c value).boundary x) := by
  unfold bd
  rw [bdLoop_ok value (value x) (c.boundary x) h []]
  rfl

theorem bd_error (c : Complex N) (value : Fibration N) (x : Fin N)
    (h : ∃ y ∈ c.boundary x, value y > value x) :
    bd c value x = .error .closureViolation :=
  bdLoop_error value (value x) (c.boundary x) h []

/-- The lambda `bd` either throws the closure violation, at a cell with a face of greater
grade, or returns the faces of the same grade. -/
theorem bd_cases (c : Complex N) (value : Fibration N) (x : Fin N) :
    (bd c value x = .error .closureViolation ∧ ∃ y ∈ c.boundary x, value y > value x) ∨
    (bd c value x = .ok ((restrict c value).boundary x) ∧
      ∀ y ∈ c.boundary x, value y ≤ value x) := by
  by_cases h : ∃ y ∈ c.boundary x, value y > value x
  · exact Or.inl ⟨bd_error c value x h, h⟩
  · push_neg at h
    exact Or.inr ⟨bd_ok c value x h, h⟩

theorem cbd_eq (c : Complex N) (value : Fibration N) (x : Fin N) :
    cbd c value x = (restrict c value).coboundary x := by
  have key : ∀ (l acc : List (Fin N)),
      l.foldl (fun result y => if value x = value y then result ++ [y] else result) acc
        = acc ++ l.filter (fun y => decide (value x = value y)) := by
    intro l
    induction l with
    | nil => simp
    | cons a l ih =>
      intro acc
      rw [List.foldl_cons, ih]
      by_cases he : value x = value a
      · rw [if_pos he, List.filter_cons_of_pos (by simpa using he)]
        simp
      · rw [if_neg he, List.filter_cons_of_neg (by simpa using he)]
  unfold cbd
  rw [key]
  rfl

theorem initGLoop_ok (c : Complex N) (value : Fibration N) (hcl : Closure c value)
    (l : List (Fin N)) (s : State N) :
    initGLoop c value l s
      = .ok (l.foldl (fun s x => classify s x (((restrict c value).boundary x).length : Int)) s) := by
  induction l generalizing s with
  | nil => rfl
  | cons a l ih =>
    simp only [initGLoop, bd_ok c value a (hcl a), List.foldl_cons]
    exact ih _

theorem initG_ok (c : Complex N) (value : Fibration N) (hcl : Closure c value) :
    initG c value = .ok (init (restrict c value)) :=
  initGLoop_ok c value hcl _ _

theorem initGLoop_error (c : Complex N) (value : Fibration N) (l : List (Fin N))
    (h : ∃ x ∈ l, ∃ y ∈ c.boundary x, value y > value x) (s : State N) :
    initGLoop c value l s = .error .closureViolation := by
  induction l generalizing s with
  | nil => obtain ⟨x, hx, _⟩ := h; cases hx
  | cons a l ih =>
    rcases bd_cases c value a with ⟨hb, _⟩ | ⟨hb, hle⟩
    · simp only [initGLoop, hb]
    · simp only [initGLoop, hb]
      apply ih
      obtain ⟨x, hx, y, hy, hgt⟩ := h
      rcases List.mem_cons.mp hx with e | e
      · subst e
        have := hle y hy
        omega
      · exact ⟨x, e, y, hy, hgt⟩

theorem touch_setPriority (s : State N) (f : Fin N → Int) (x : Fin N) :
    touch (setPriority s f) x = setPriority (touch s x) f := by
  simp only [touch, setPriority]
  split_ifs <;> rfl

theorem foldl_touch_setPriority (l : List (Fin N)) (s : State N) (f : Fin N → Int) :
    l.foldl touch (setPriority s f) = setPriority (l.foldl touch s) f := by
  induction l generalizing s with
  | nil => rfl
  | cons a l ih => rw [List.foldl_cons, List.foldl_cons, touch_setPriority, ih]

theorem processG_regrade (c : Complex N) (value : Fibration N) (s : State N) (y : Fin N) :
    processG c value (regrade value s) y = regrade value (process (restrict c value) s y) := by
  have hF : (fun x => if x ∈ s.log ++ [y]
        then value x * (N : Int) + Function.update s.priority_ y s.num_processed x
        else Function.update s.priority_ y s.num_processed x)
      = Function.update
          (fun x => if x ∈ s.log then value x * (N : Int) + s.priority_ x else s.priority_ x)
          y (value y * (N : Int) + s.num_processed) := by
    funext x
    by_cases hx : x = y
    · subst hx; simp
    · simp [hx, Function.update_noteq hx]
  unfold regrade
  rw [process_log, process_priority, hF]
  unfold processG process
  rw [cbd_eq, ← foldl_touch_setPriority]
  rfl

theorem aceG_regrade (c : Complex N) (value : Fibration N) (s : State N) (A : Fin N) :
    aceG c value (regrade value s) A = regrade value (ace (restrict c value) s A) := by
  exact processG_regrade c value
    { s with ace_candidates := s.ace_candidates.erase A, aces := s.aces ++ [A],
             mate_ := Function.update s.mate_ A (A : Int) } A

theorem coreduceG_regrade (c : Complex N) (value : Fibration N) (hcl : Closure c value)
    (s : State N) (K : Fin N) :
    coreduceG c value (regrade value s) K
      = (coreduce (restrict c value) s K).map (regrade value) := by
  unfold coreduceG coreduce
  simp only [bd_ok c value K (hcl K)]
  have hm : (regrade value s).mate_ = s.mate_ := rfl
  simp only [hm]
  cases hfind : ((restrict c value).boundary K).find? (fun x => decide (s.mate_ x = -1)) with
  | none => rfl
  | some Q =>
    have hQ : Q ∈ (restrict c value).boundary K := List.mem_of_find?_eq_some hfind
    have hval : value K = value Q := by
      have := (List.mem_filter.mp hQ).2
      simpa using this
    simp only [ne_eq, hval, not_true_eq_false, if_false]
    have key := processG_regrade c value
      { s with coreducible := s.coreducible.erase K,
               mate_ := Function.update (Function.update s.mate_ K (Q : Int)) Q (K : Int) } Q
    show Except.ok (processG c value (processG c value (regrade value
      { s with coreducible := s.coreducible.erase K,
               mate_ := Function.update (Function.update s.mate_ K (Q : Int)) Q (K : Int) }) Q)
      K) = _
    rw [key, processG_regrade]
    rfl

theorem bodyG_regrade (c : Complex N) (value : Fibration N) (hcl : Closure c value)
    (i : Nat) (s : State N) :
    bodyG c value i (regrade value s) = (body (restrict c value) i s).map (regrade value) := by
  unfold bodyG body
  have h1 : (regrade value s).coreducible = s.coreducible := rfl
  have h2 : (regrade value s).ace_candidates = s.ace_candidates := rfl
  rw [h1, h2]
  split_ifs
  · cases extract s.coreducible i with
    | none => rfl
    | some K => exact coreduceG_regrade c value hcl s K
  · cases extract s.ace_candidates i with
    | none => rfl
    | some A =>
      show Except.ok (aceG c value (regrade value s) A) = _
      rw [aceG_regrade]
      rfl

theorem loopG_regrade (c : Complex N) (value : Fibration N) (hcl : Closure c value)
    (ord : Nat → Nat) (fuel : Nat) :
    ∀ (t : Nat) (s : State N),
      loopG c value ord fuel t (regrade value s)
        = (loop (restrict c value) ord fuel t s).map (regrade value) := by
  have hnp : ∀ s : State N, (regrade value s).num_processed = s.num_processed := fun _ => rfl
  induction fuel with
  | zero =>
    intro t s
    simp only [loopG, loop, hnp]
    split_ifs <;> rfl
  | succ fuel ih =>
    intro t s
    simp only [loopG, loop, hnp, bodyG_regrade c value hcl]
    split_ifs
    · cases body (restrict c value) (ord t) s with
      | error e => rfl
      | ok s1 => exact ih (t + 1) s1
    · rfl

theorem regrade_of_log_nil (value : Fibration N) (s : State N) (h : s.log = []) :
    regrade value s = s := by
  cases s
  simp only at h
  subst h
  simp [regrade, setPriority]

theorem regrade_init (c : Complex N) (value : Fibration N) :
    regrade value (init c) = init c :=
  regrade_of_log_nil value _
    (foldl_classify (fun x => ((c.boundary x).length : Int)) (List.finRange N) (start N)).2.2.2.1

/-- With the closure property, the graded constructor returns what the plain constructor
returns on the restricted complex, with the priorities regraded. -/
theorem graded_eq (c : Complex N) (value : Fibration N) (hcl : Closure c value)
    (ord : Nat → Nat) :
    graded c value ord = (plain (restrict c value) ord).map (regrade value) := by
  unfold graded plain
  rw [initG_ok c value hcl]
  simp only []
  rw [← loopG_regrade c value hcl ord N 0, regrade_init]

theorem restrict_wellFormed (c : Complex N) (dim : Fin N → Nat) (value : Fibration N)
    (hwf : WellFormed c dim) (hcl : Closure c value) : WellFormed (restrict c value) dim where
  inverse := by
    intro x y
    simp only [restrict, List.mem_filter, decide_eq_true_eq]
    rw [hwf.inverse x y]
    constructor
    · rintro ⟨h1, h2⟩; exact ⟨h1, h2.symm⟩
    · rintro ⟨h1, h2⟩; exact ⟨h1, h2.symm⟩
  dimension := by
    intro x y hx
    exact hwf.dimension x y (List.mem_filter.mp hx).1
  squared := by
    intro x z
    simp only [restrict, List.filter_filter, List.mem_filter, decide_eq_true_eq]
    by_cases hv : value z = value x
    · have hcongr : (c.boundary x).filter
            (fun a => decide (z ∈ c.boundary a ∧ value a = value z) && decide (value x = value a))
          = (c.boundary x).filter (fun y => decide (z ∈ c.boundary y)) := by
        apply List.filter_congr
        intro y hy
        by_cases hz : z ∈ c.boundary y
        · have h1 := hcl y z hz
          have h2 := hcl x y hy
          have e1 : value y = value z := by omega
          have e2 : value x = value y := by omega
          simp [hz, e1, e2]
        · simp [hz]
      rw [hcongr]
      exact hwf.squared x z
    · have hnil : (c.boundary x).filter
            (fun a => decide (z ∈ c.boundary a ∧ value a = value z) && decide (value x = value a))
          = [] := by
        rw [List.filter_eq_nil_iff]
        intro y _
        simp only [Bool.and_eq_true, decide_eq_true_eq, not_and]
        intro h1 h2
        exact hv (by rw [← h1.2, h2])
      rw [hnil]
      rfl

/-- On a well-formed complex with a fibration that has the closure property, the graded
constructor returns the regraded final state of the plain constructor on the restricted
complex, which satisfies the loop invariant with all cells processed. -/
theorem graded_inv (c : Complex N) (dim : Fin N → Nat) (value : Fibration N)
    (hwf : WellFormed c dim) (hcl : Closure c value) (ord : Nat → Nat) :
    ∃ p, graded c value ord = .ok (regrade value p) ∧ Inv (restrict c value) p ∧
      p.num_processed = (N : Int) ∧ ∀ x, x ∈ p.log := by
  obtain ⟨p, h1, h2, h3, h4⟩ :=
    plain_inv (restrict c value) dim (restrict_wellFormed c dim value hwf hcl) ord
  refine ⟨p, ?_, h2, h3, h4⟩
  rw [graded_eq c value hcl ord, h1]
  rfl

/-! ## Consequences of the invariant for a finished construction -/

/-- In a state that satisfies the invariant, the mate of a processed cell `x` is a processed
cell `y` whose mate is `x`; and `x = y`, or one of the two is a face of the other and was
processed immediately before it. -/
theorem Inv.mate_eq {c : Complex N} {s : State N} (h : Inv c s) (x y : Fin N)
    (hx : x ∈ s.log) (hxy : s.mate_ x = ((y : Nat) : Int)) :
    s.mate_ y = ((x : Nat) : Int) ∧
      (x = y ∨ (x ∈ c.boundary y ∧ s.priority_ y = s.priority_ x + 1) ∨
        (y ∈ c.boundary x ∧ s.priority_ x = s.priority_ y + 1)) := by
  obtain ⟨y1, _, h1, h2, h3⟩ := h.paired.pair x hx
  have e : y1 = y := cast_inj (h1.symm.trans hxy)
  subst e
  refine ⟨h2, ?_⟩
  rcases h3 with h3 | h3 | h3
  · exact Or.inl h3.1
  · exact Or.inr (Or.inl h3)
  · exact Or.inr (Or.inr h3)

theorem Inv.involution {c : Complex N} {s : State N} (h : Inv c s) (hall : ∀ x, x ∈ s.log)
    (x : Fin N) : ∃ y : Fin N, mate s x = ((y : Nat) : Int) ∧ mate s y = ((x : Nat) : Int) := by
  obtain ⟨y, _, h1, h2, _⟩ := h.paired.pair x (hall x)
  exact ⟨y, h1, h2⟩

/-- Along a gradient pair followed by another face, the priority decreases. -/
theorem Inv.vpath_step {c : Complex N} {s : State N} (h : Inv c s) (hall : ∀ x, x ∈ s.log)
    (q k q1 : Fin N) (hm : s.mate_ q = ((k : Nat) : Int)) (hq : q ∈ c.boundary k)
    (hq1 : q1 ∈ c.boundary k) (hne : q1 ≠ q) : s.priority_ q1 < s.priority_ q := by
  have hk : s.priority_ k = s.priority_ q + 1 := by
    have hface := h.core.prio_face k (hall k) q hq
    rcases (h.mate_eq q k (hall q) hm).2 with e | e | e
    · subst e; omega
    · exact e.2
    · omega
  have h1 := h.core.prio_face k (hall k) q1 hq1
  have h2 : s.priority_ q1 ≠ s.priority_ q :=
    fun e => hne (h.core.prio_inj q1 (hall q1) q (hall q) e)
  omega

theorem Inv.acyclic {c : Complex N} {s : State N} (h : Inv c s) (hall : ∀ x, x ∈ s.log) :
    ¬ ∃ (n : Nat) (Q K : Nat → Fin N), 1 ≤ n ∧ Q n = Q 0 ∧
        ∀ i, i < n → mate s (Q i) = (((K i : Fin N) : Nat) : Int) ∧ Q i ∈ c.boundary (K i) ∧
          Q (i + 1) ∈ c.boundary (K i) ∧ Q (i + 1) ≠ Q i := by
  rintro ⟨n, Q, K, hn, hcl, hstep⟩
  have hdec : ∀ i, i ≤ n → s.priority_ (Q i) + (i : Int) ≤ s.priority_ (Q 0) := by
    intro i
    induction i with
    | zero => intro _; simp
    | succ i ih =>
      intro hi
      obtain ⟨h1, h2, h3, h4⟩ := hstep i (by omega)
      have := h.vpath_step hall (Q i) (K i) (Q (i + 1)) h1 h2 h3 h4
      have := ih (by omega)
      push_cast
      omega
  have := hdec n le_rfl
  rw [hcl] at this
  have hn1 : (1 : Int) ≤ (n : Int) := by exact_mod_cast hn
  omega

theorem Inv.pair_face {c : Complex N} {s : State N} (h : Inv c s) (hall : ∀ x, x ∈ s.log)
    (x y : Fin N) (hxy : mate s x = ((y : Nat) : Int)) (hcrit : mate s x ≠ ((x : Nat) : Int))
    (hprio : priority s x < priority s y) : x ∈ c.boundary y := by
  unfold mate at hxy hcrit
  unfold priority at hprio
  rcases (h.mate_eq x y (hall x) hxy).2 with e | e | e
  · subst e; exact absurd hxy hcrit
  · exact e.1
  · omega

theorem Inv.priority_bijection {c : Complex N} {s : State N} (h : Inv c s)
    (hall : ∀ x, x ∈ s.log) (hN : s.num_processed = (N : Int)) :
    (∀ x, 0 ≤ priority s x ∧ priority s x < (N : Int)) ∧
    (∀ x y, priority s x = priority s y → x = y) ∧
    (∀ k : Int, 0 ≤ k → k < (N : Int) → ∃ x, priority s x = k) := by
  have hrange : ∀ x, 0 ≤ priority s x ∧ priority s x < (N : Int) := by
    intro x
    have := h.core.prio_range x (hall x)
    unfold priority
    omega
  have hinj : ∀ x y, priority s x = priority s y → x = y :=
    fun x y e => h.core.prio_inj x (hall x) y (hall y) e
  refine ⟨hrange, hinj, ?_⟩
  intro k hk0 hkN
  let g : Fin N → Fin N := fun x => ⟨(priority s x).toNat, by have := hrange x; omega⟩
  have hg : Function.Injective g := by
    intro x y e
    apply hinj
    have e1 : (priority s x).toNat = (priority s y).toNat := congrArg Fin.val e
    have := hrange x
    have := hrange y
    omega
  obtain ⟨x, hx⟩ := Finite.surjective_of_injective hg ⟨k.toNat, by omega⟩
  refine ⟨x, ?_⟩
  have e1 : (priority s x).toNat = k.toNat := congrArg Fin.val hx
  have := hrange x
  omega

/-! ## The loop, its head states and its outcomes -/

theorem returns_iff (r : Except Err (State N)) (p : State N → Bool) :
    returns r p = true ↔ ∃ s, r = .ok s ∧ p s = true := by
  cases r with
  | error e => simp [returns]
  | ok s => simp [returns]

theorem failsWith_iff (r : Except Err (State N)) (e : Err) :
    failsWith r e = true ↔ r = .error e := by
  cases r with
  | error e1 => simp [failsWith]
  | ok s => simp [failsWith]

theorem init_num_processed (c : Complex N) : (init c).num_processed = 0 :=
  (foldl_classify (fun x => ((c.boundary x).length : Int)) (List.finRange N) (start N)).2.2.1

theorem headState_error (c : Complex N) (ord : Nat → Nat) (t : Nat) (e : Err)
    (h : headState c ord t = .error e) (k : Nat) : headState c ord (t + k) = .error e := by
  induction k with
  | zero => exact h
  | succ k ih =>
    show headState c ord (t + k + 1) = _
    simp only [headState, ih]

theorem headState_done (c : Complex N) (ord : Nat → Nat) (t : Nat) (s : State N)
    (h : headState c ord t = .ok s) (hdone : ¬ s.num_processed < (N : Int)) (k : Nat) :
    headState c ord (t + k) = .ok s := by
  induction k with
  | zero => exact h
  | succ k ih =>
    show headState c ord (t + k + 1) = _
    simp only [headState, ih, if_neg hdone]

theorem loop_eq_headState (c : Complex N) (ord : Nat → Nat) (fuel : Nat) :
    ∀ (t : Nat) (s : State N), headState c ord t = .ok s →
      (N : Int) ≤ s.num_processed + fuel → loop c ord fuel t s = headState c ord (t + fuel) := by
  induction fuel with
  | zero =>
    intro t s h hfuel
    have hdone : ¬ s.num_processed < (N : Int) := by push_cast at hfuel; omega
    simp only [loop, if_neg hdone]
    exact h.symm
  | succ fuel ih =>
    intro t s h hfuel
    by_cases hlt : s.num_processed < (N : Int)
    · have hnext : headState c ord (t + 1) = body c (ord t) s := by
        simp only [headState, h, if_pos hlt]
      simp only [loop, if_pos hlt]
      cases hb : body c (ord t) s with
      | error e =>
        rw [hb] at hnext
        have := headState_error c ord (t + 1) e hnext fuel
        rw [show t + (fuel + 1) = t + 1 + fuel by omega, this]
      | ok s1 =>
        rw [hb] at hnext
        have hnp := body_num_processed c (ord t) s s1 hb
        have := ih (t + 1) s1 hnext (by push_cast at hfuel; omega)
        rw [show t + (fuel + 1) = t + 1 + fuel by omega, ← this]
    · simp only [loop, if_neg hlt]
      exact (headState_done c ord t s h hlt (fuel + 1)).symm

/-- The plain constructor returns the state at the `N`-th evaluation of the loop condition:
the fuel `N` never runs out. -/
theorem plain_eq_headState (c : Complex N) (ord : Nat → Nat) :
    plain c ord = headState c ord N := by
  have := loop_eq_headState c ord N 0 (init c) rfl (by rw [init_num_processed]; omega)
  rw [Nat.zero_add] at this
  exact this

theorem body_error (c : Complex N) (i : Nat) (s : State N) (e : Err)
    (h : body c i s = .error e) : e = .emptyExtraction ∨ e = .uninitialisedQ := by
  simp only [body] at h
  split_ifs at h
  · split at h
    · injection h with h; exact Or.inl h.symm
    · simp only [coreduce] at h
      split at h
      · injection h with h; exact Or.inr h.symm
      · cases h
  · split at h
    · injection h with h; exact Or.inl h.symm
    · cases h

theorem headState_errors (c : Complex N) (ord : Nat → Nat) (t : Nat) (e : Err)
    (h : headState c ord t = .error e) : e = .emptyExtraction ∨ e = .uninitialisedQ := by
  induction t with
  | zero => cases h
  | succ t ih =>
    simp only [headState] at h
    split at h
    · rename_i e1 he1
      injection h with h
      subst h
      exact ih he1
    · split_ifs at h
      exact body_error c _ _ e h

theorem plain_errors (c : Complex N) (ord : Nat → Nat) (e : Err)
    (h : plain c ord = .error e) : e = .emptyExtraction ∨ e = .uninitialisedQ := by
  rw [plain_eq_headState] at h
  exact headState_errors c ord N e h

theorem loop_mem_outcomes (c : Complex N) (ord : Nat → Nat) (fuel : Nat) :
    ∀ (t : Nat) (s : State N), loop c ord fuel t s ∈ outcomes c fuel s := by
  induction fuel with
  | zero =>
    intro t s
    simp only [loop, outcomes]
    split_ifs <;> simp
  | succ fuel ih =>
    intro t s
    simp only [loop, outcomes, body]
    split_ifs with hlt hco hace
    · cases hK : extract s.coreducible (ord t) with
      | none =>
        obtain ⟨K, hK1⟩ := extract_some s.coreducible (ord t) hco
        rw [hK] at hK1
        cases hK1
      | some K =>
        simp only [List.mem_flatMap]
        refine ⟨K, (mem_members _ K).mpr (extract_mem _ _ _ hK), ?_⟩
        cases coreduce c s K with
        | error e => simp
        | ok s1 => exact ih (t + 1) s1
    · cases hA : extract s.ace_candidates (ord t) with
      | none =>
        obtain ⟨A, hA1⟩ := extract_some s.ace_candidates (ord t) hace
        rw [hA] at hA1
        cases hA1
      | some A =>
        simp only [List.mem_flatMap]
        exact ⟨A, (mem_members _ A).mpr (extract_mem _ _ _ hA), ih (t + 1) _⟩
    · cases hA : extract s.ace_candidates (ord t) with
      | none => simp
      | some A => exact absurd ⟨A, extract_mem _ _ _ hA⟩ hace
    · simp

/-! ## The example complexes -/

theorem triangle_wellFormed : WellFormed triangle triangleDim :=
  ⟨by unfold Inverse; decide, by unfold Dimensioned; decide,
    by unfold BoundarySquaredZero; decide⟩

theorem triangle_closure : Closure triangle triangleValue := by
  unfold Closure; decide

set_option maxRecDepth 1000000 in
theorem triangle_outcomes :
    ∀ r ∈ outcomes triangle 6 (init triangle), returns r triangleTest = true := by
  decide

theorem tower_inverse : Inverse tower := by
  unfold Inverse; decide

theorem cycle_inverse : Inverse cycle := by
  unfold Inverse; decide

theorem cycle_squared : BoundarySquaredZero cycle := by
  unfold BoundarySquaredZero; decide

/-! ## The claims -/

/-- C1: on a well-formed complex (coboundary the inverse of boundary, faces of strictly
lower dimension, boundary of a boundary zero mod 2) and for every extraction order, the
plain constructor and, for a fibration with the closure property, the graded constructor
return a result in which the mate of every cell `x` is a cell `y` of the complex (never the
unset value `-1`) with `mate y = x`. -/
theorem mate_self_inverse (c : Complex N) (dim : Fin N → Nat) (value : Fibration N)
    (hwf : WellFormed c dim) (hcl : Closure c value) (ord : Nat → Nat) :
    (∃ s, plain c ord = .ok s ∧
      ∀ x : Fin N, ∃ y : Fin N, mate s x = ((y : Nat) : Int) ∧ mate s y = ((x : Nat) : Int)) ∧
    (∃ s, graded c value ord = .ok s ∧
      ∀ x : Fin N, ∃ y : Fin N, mate s x = ((y : Nat) : Int) ∧ mate s y = ((x : Nat) : Int)) := by
  constructor
  · obtain ⟨s, h1, h2, _, h4⟩ := plain_inv c dim hwf ord
    exact ⟨s, h1, h2.involution h4⟩
  · obtain ⟨p, h1, h2, _, h4⟩ := graded_inv c dim value hwf hcl ord
    exact ⟨regrade value p, h1, h2.involution h4⟩

theorem mate_self_inverse_witness :
    WellFormed triangle triangleDim ∧ Closure triangle triangleValue ∧
    ((∃ s, plain triangle (fun _ => 0) = .ok s ∧
      ∀ x : Fin 6, ∃ y : Fin 6, mate s x = ((y : Nat) : Int) ∧ mate s y = ((x : Nat) : Int)) ∧
    (∃ s, graded triangle triangleValue (fun _ => 0) = .ok s ∧
      ∀ x : Fin 6, ∃ y : Fin 6, mate s x = ((y : Nat) : Int) ∧ mate s y = ((x : Nat) : Int))) :=
  ⟨triangle_wellFormed, triangle_closure,
    mate_self_inverse triangle triangleDim triangleValue triangle_wellFormed triangle_closure
      (fun _ => 0)⟩

/-- C2: on a well-formed complex and for every extraction order, the plain constructor
returns a matching without closed V-path: there are no `n ≥ 1` and cells `Q 0, K 0, Q 1,
K 1, ..., Q n = Q 0` such that, for every `i < n`, `K i` is the mate of `Q i`, `Q i` is a
face of `K i`, and `Q (i+1)` is a face of `K i` other than `Q i`. -/
theorem plain_acyclic (c : Complex N) (dim : Fin N → Nat) (hwf : WellFormed c dim)
    (ord : Nat → Nat) :
    ∃ s, plain c ord = .ok s ∧
      ¬ ∃ (n : Nat) (Q K : Nat → Fin N), 1 ≤ n ∧ Q n = Q 0 ∧
        ∀ i, i < n → mate s (Q i) = (((K i : Fin N) : Nat) : Int) ∧ Q i ∈ c.boundary (K i) ∧
          Q (i + 1) ∈ c.boundary (K i) ∧ Q (i + 1) ≠ Q i := by
  obtain ⟨s, h1, h2, _, h4⟩ := plain_inv c dim hwf ord
  exact ⟨s, h1, h2.acyclic h4⟩

theorem plain_acyclic_witness :
    WellFormed triangle triangleDim ∧
    ∃ s, plain triangle (fun t => t) = .ok s ∧
      ¬ ∃ (n : Nat) (Q K : Nat → Fin 6), 1 ≤ n ∧ Q n = Q 0 ∧
        ∀ i, i < n → mate s (Q i) = (((K i : Fin 6) : Nat) : Int) ∧
          Q i ∈ triangle.boundary (K i) ∧
          Q (i + 1) ∈ triangle.boundary (K i) ∧ Q (i + 1) ≠ Q i :=
  ⟨triangle_wellFormed, plain_acyclic triangle triangleDim triangle_wellFormed (fun t => t)⟩

/-- C3: on a well-formed complex and for every extraction order, in the result of the plain
constructor every non-critical cell `x` with `mate x = y` and `priority x < priority y` is a
face of `y`. -/
theorem plain_pair_face (c : Complex N) (dim : Fin N → Nat) (hwf : WellFormed c dim)
    (ord : Nat → Nat) :
    ∃ s, plain c ord = .ok s ∧
      ∀ x y : Fin N, mate s x = ((y : Nat) : Int) → mate s x ≠ ((x : Nat) : Int) →
        priority s x < priority s y → x ∈ c.boundary y := by
  obtain ⟨s, h1, h2, _, h4⟩ := plain_inv c dim hwf ord
  exact ⟨s, h1, h2.pair_face h4⟩

theorem plain_pair_face_witness :
    WellFormed triangle triangleDim ∧
    ∃ s, plain triangle (fun t => t + 1) = .ok s ∧
      ∀ x y : Fin 6, mate s x = ((y : Nat) : Int) → mate s x ≠ ((x : Nat) : Int) →
        priority s x < priority s y → x ∈ triangle.boundary y :=
  ⟨triangle_wellFormed, plain_pair_face triangle triangleDim triangle_wellFormed (fun t => t + 1)⟩

/-- C4: on a well-formed complex of size `N` and for every extraction order, the priorities
of the plain constructor are a bijection from the cells onto the integers `0 .. N-1`:
`process` is called exactly once on every cell, every priority lies in `[0,N)`, different
cells have different priorities, and every integer of `[0,N)` is a priority. -/
theorem plain_priority_bijection (c : Complex N) (dim : Fin N → Nat) (hwf : WellFormed c dim)
    (ord : Nat → Nat) :
    ∃ s, plain c ord = .ok s ∧
      (∀ x, s.log.count x = 1) ∧
      (∀ x, 0 ≤ priority s x ∧ priority s x < (N : Int)) ∧
      (∀ x y, priority s x = priority s y → x = y) ∧
      (∀ k : Int, 0 ≤ k → k < (N : Int) → ∃ x, priority s x = k) := by
  obtain ⟨s, h1, h2, h3, h4⟩ := plain_inv c dim hwf ord
  obtain ⟨e1, e2, e3⟩ := h2.priority_bijection h4 h3
  exact ⟨s, h1, fun x => List.count_eq_one_of_mem h2.core.nodup (h4 x), e1, e2, e3⟩

theorem plain_priority_bijection_witness :
    WellFormed triangle triangleDim ∧
    ∃ s, plain triangle (fun t => 2 * t) = .ok s ∧
      (∀ x, s.log.count x = 1) ∧
      (∀ x, 0 ≤ priority s x ∧ priority s x < ((6 : Nat) : Int)) ∧
      (∀ x y, priority s x = priority s y → x = y) ∧
      (∀ k : Int, 0 ≤ k → k < ((6 : Nat) : Int) → ∃ x, priority s x = k) :=
  ⟨triangle_wellFormed,
    plain_priority_bijection triangle triangleDim triangle_wellFormed (fun t => 2 * t)⟩

/-- C5: on a well-formed complex, for every fibration with integer grades and the closure
property and for every extraction order, the graded constructor returns a result in which
`value x < value y` implies `priority x < priority y` (integers unbounded). -/
theorem graded_priority_order (c : Complex N) (dim : Fin N → Nat) (value : Fibration N)
    (hwf : WellFormed c dim) (hcl : Closure c value) (ord : Nat → Nat) :
    ∃ s, graded c value ord = .ok s ∧
      ∀ x y : Fin N, value x < value y → priority s x < priority s y := by
  obtain ⟨p, h1, h2, h3, h4⟩ := graded_inv c dim value hwf hcl ord
  refine ⟨regrade value p, h1, ?_⟩
  intro x y hlt
  have hx : priority (regrade value p) x = value x * (N : Int) + p.priority_ x := by
    simp [priority, regrade, setPriority, h4 x]
  have hy : priority (regrade value p) y = value y * (N : Int) + p.priority_ y := by
    simp [priority, regrade, setPriority, h4 y]
  rw [hx, hy]
  have rx := h2.core.prio_range x (h4 x)
  have ry := h2.core.prio_range y (h4 y)
  have hN : (0 : Int) ≤ (N : Int) := Int.natCast_nonneg N
  have hmul : (value x + 1) * (N : Int) ≤ value y * (N : Int) :=
    Int.mul_le_mul_of_nonneg_right (by omega) hN
  have hexp : (value x + 1) * (N : Int) = value x * (N : Int) + (N : Int) := by ring
  omega

theorem graded_priority_order_witness :
    WellFormed triangle triangleDim ∧ Closure triangle triangleValue ∧
    ∃ s, graded triangle triangleValue (fun _ => 0) = .ok s ∧
      ∀ x y : Fin 6, triangleValue x < triangleValue y → priority s x < priority s y :=
  ⟨triangle_wellFormed, triangle_closure,
    graded_priority_order triangle triangleDim triangleValue triangle_wellFormed
      triangle_closure (fun _ => 0)⟩

/-- C6: on a well-formed complex, for every fibration with the closure property and for
every extraction order, the graded constructor returns a matching that stays inside the
grade levels: the mate of every cell `x` is a cell of the grade of `x`. -/
theorem graded_mate_same_grade (c : Complex N) (dim : Fin N → Nat) (value : Fibration N)
    (hwf : WellFormed c dim) (hcl : Closure c value) (ord : Nat → Nat) :
    ∃ s, graded c value ord = .ok s ∧
      ∀ x : Fin N, ∃ y : Fin N, mate s x = ((y : Nat) : Int) ∧ value y = value x := by
  obtain ⟨p, h1, h2, _, h4⟩ := graded_inv c dim value hwf hcl ord
  refine ⟨regrade value p, h1, ?_⟩
  intro x
  obtain ⟨y, hy, _⟩ := h2.involution h4 x
  refine ⟨y, hy, ?_⟩
  rcases (h2.mate_eq x y (h4 x) hy).2 with e | e | e
  · rw [e]
  · have := (List.mem_filter.mp e.1).2
    simpa using this
  · have := (List.mem_filter.mp e.1).2
    exact (of_decide_eq_true this).symm

theorem graded_mate_same_grade_witness :
    WellFormed triangle triangleDim ∧ Closure triangle triangleValue ∧
    ∃ s, graded triangle triangleValue (fun t => t) = .ok s ∧
      ∀ x : Fin 6, ∃ y : Fin 6, mate s x = ((y : Nat) : Int) ∧
        triangleValue y = triangleValue x :=
  ⟨triangle_wellFormed, triangle_closure,
    graded_mate_same_grade triangle triangleDim triangleValue triangle_wellFormed
      triangle_closure (fun t => t)⟩

/-- C7: for every complex and fibration, the graded constructor fails with the closure
violation if and only if some cell has a boundary face of greater grade; and it fails with
it exactly when its initial boundary-count pass does, which runs before the main loop, the
only place where `mate_` and `priority_` are assigned. -/
theorem graded_closure_violation (c : Complex N) (value : Fibration N) (ord : Nat → Nat) :
    (graded c value ord = .error .closureViolation ↔
      ∃ x : Fin N, ∃ y ∈ c.boundary x, value y > value x) ∧
    (graded c value ord = .error .closureViolation ↔
      initG c value = .error .closureViolation) := by
  by_cases hv : ∃ x : Fin N, ∃ y ∈ c.boundary x, value y > value x
  · have hinit : initG c value = .error .closureViolation := by
      obtain ⟨x, hx⟩ := hv
      exact initGLoop_error c value _ ⟨x, List.mem_finRange x, hx⟩ _
    have hg : graded c value ord = .error .closureViolation := by
      simp only [graded, hinit]
    exact ⟨⟨fun _ => hv, fun _ => hg⟩, ⟨fun _ => hinit, fun _ => hg⟩⟩
  · have hcl : Closure c value := by
      intro x y hy
      by_contra hgt
      exact hv ⟨x, y, hy, by omega⟩
    have hinit : initG c value ≠ .error .closureViolation := by
      rw [initG_ok c value hcl]
      intro e
      cases e
    have hg : graded c value ord ≠ .error .closureViolation := by
      rw [graded_eq c value hcl ord]
      intro e
      cases hp : plain (restrict c value) ord with
      | ok s => rw [hp] at e; cases e
      | error e1 =>
        rw [hp] at e
        have he : e1 = .closureViolation := by
          injection e
        subst he
        rcases plain_errors _ ord _ hp with h | h <;> cases h
    exact ⟨⟨fun e => absurd e hg, fun e => absurd e hv⟩,
      ⟨fun e => absurd e hg, fun e => absurd e hinit⟩⟩

/-- C8: on the triangle edge complex, for every extraction order, the plain constructor
returns a result with exactly two critical cells, one of them a vertex and one an edge, in
which every other vertex is paired with an edge incident to it and `mate` is an involution
on the six cells. -/
theorem triangle_example (ord : Nat → Nat) :
    ∃ s, plain triangle ord = .ok s ∧
      (Finset.univ.filter (fun x : Fin 6 => mate s x = ((x : Nat) : Int))).card = 2 ∧
      (Finset.univ.filter (fun x : Fin 6 => x.val < 3 ∧ mate s x = ((x : Nat) : Int))).card = 1 ∧
      (Finset.univ.filter (fun x : Fin 6 => 3 ≤ x.val ∧ mate s x = ((x : Nat) : Int))).card = 1 ∧
      (∀ v : Fin 6, v.val < 3 → mate s v ≠ ((v : Nat) : Int) →
        ∃ e : Fin 6, 3 ≤ e.val ∧ mate s v = ((e : Nat) : Int) ∧ v ∈ triangle.boundary e) ∧
      (∀ x : Fin 6, ∃ y : Fin 6, mate s x = ((y : Nat) : Int) ∧ mate s y = ((x : Nat) : Int)) := by
  have hmem : plain triangle ord ∈ outcomes triangle 6 (init triangle) :=
    loop_mem_outcomes triangle ord 6 0 (init triangle)
  obtain ⟨s, hs, htest⟩ := (returns_iff _ _).mp (triangle_outcomes _ hmem)
  exact ⟨s, hs, of_decide_eq_true htest⟩

/-- C9: on a well-formed complex of size `N` and for every extraction order, the plain main
loop ends with `num_processed` equal to `N` and with `process` called exactly once on every
cell; at every evaluation of its condition `num_processed` is at most `N`, and when it is
less than `N` and the coreducible set is empty, the ace-candidate set is not empty and the
extraction from it yields a cell. -/
theorem plain_terminates (c : Complex N) (dim : Fin N → Nat) (hwf : WellFormed c dim)
    (ord : Nat → Nat) :
    (∃ s, plain c ord = .ok s ∧ s.num_processed = (N : Int) ∧ ∀ x, s.log.count x = 1) ∧
    (∀ t, ∃ s, headState c ord t = .ok s ∧ s.num_processed ≤ (N : Int) ∧
      (s.num_processed < (N : Int) → ¬ s.coreducible.Nonempty →
        s.ace_candidates.Nonempty ∧ ∀ i, ∃ A, extract s.ace_candidates i = some A)) := by
  constructor
  · obtain ⟨s, h1, h2, h3, h4⟩ := plain_inv c dim hwf ord
    exact ⟨s, h1, h3, fun x => List.count_eq_one_of_mem h2.core.nodup (h4 x)⟩
  · intro t
    obtain ⟨s, h1, h2⟩ := headState_inv c dim hwf ord t
    refine ⟨s, h1, h2.num_processed_le, ?_⟩
    intro hlt _
    have hne := ace_candidates_nonempty c dim hwf.dimension s h2 hlt
    exact ⟨hne, fun i => extract_some _ i hne⟩

theorem plain_terminates_witness :
    WellFormed triangle triangleDim ∧
    ((∃ s, plain triangle (fun t => 3 * t) = .ok s ∧ s.num_processed = ((6 : Nat) : Int) ∧
        ∀ x, s.log.count x = 1) ∧
    (∀ t, ∃ s, headState triangle (fun t => 3 * t) t = .ok s ∧
      s.num_processed ≤ ((6 : Nat) : Int) ∧
      (s.num_processed < ((6 : Nat) : Int) → ¬ s.coreducible.Nonempty →
        s.ace_candidates.Nonempty ∧ ∀ i, ∃ A, extract s.ace_candidates i = some A))) :=
  ⟨triangle_wellFormed,
    plain_terminates triangle triangleDim triangle_wellFormed (fun t => 3 * t)⟩

/-- C10, as stated, fails.  On `tower`, where boundary and coboundary are inverse and faces
have lower dimension but the boundary of a boundary is not zero, the plain constructor calls
`process` five times, twice on the cell `2`, and returns `mate 3 = 2` with `mate 2 = 1`.
On `cycle`, where boundary and coboundary are inverse and the boundary of a boundary is zero
but the cells have no dimension, it extracts from the empty ace-candidate set. -/
theorem plain_complete_counterexample :
    (Inverse tower ∧ Dimensioned tower towerDim ∧
      (∃ s, plain tower (fun _ => 0) = .ok s ∧ s.num_processed = 5 ∧ s.log.count 2 = 2 ∧
        mate s 3 = 2 ∧ mate s 2 = 1) ∧
      ¬ ∃ s, plain tower (fun _ => 0) = .ok s ∧ (∀ x, s.log.count x = 1) ∧
        ∀ x y : Fin 4, mate s x = ((y : Nat) : Int) → mate s y = ((x : Nat) : Int)) ∧
    (Inverse cycle ∧ BoundarySquaredZero cycle ∧
      plain cycle (fun _ => 0) = .error .emptyExtraction) := by
  have hrun : returns (plain tower (fun _ => 0)) (fun s =>
      decide (s.num_processed = 5 ∧ s.log.count 2 = 2 ∧ mate s 3 = 2 ∧ mate s 2 = 1)) = true := by
    decide
  obtain ⟨s, hs, hp⟩ := (returns_iff _ _).mp hrun
  have hp1 := of_decide_eq_true hp
  have hfail : failsWith (plain cycle (fun _ => 0)) .emptyExtraction = true := by decide
  refine ⟨⟨tower_inverse, by unfold Dimensioned; decide, ⟨s, hs, hp1⟩, ?_⟩,
    cycle_inverse, cycle_squared, (failsWith_iff _ _).mp hfail⟩
  rintro ⟨s1, hs1, _, hsym⟩
  rw [hs] at hs1
  injection hs1 with e
  subst e
  have h32 : mate s 3 = (((2 : Fin 4) : Nat) : Int) := hp1.2.2.1
  have h23 : mate s 2 = (((3 : Fin 4) : Nat) : Int) := hsym 3 2 h32
  rw [hp1.2.2.2] at h23
  exact absurd h23 (by decide)

/-- C10, amended: on a well-formed complex of size `N` (boundary and coboundary inverse, faces
of strictly lower dimension, boundary of a boundary zero mod 2) and for every extraction
order, the plain constructor returns after calling `process` exactly once on every cell,
with a mate and a priority in `[0,N)` for every cell and a symmetric pairing. -/
theorem plain_complete (c : Complex N) (dim : Fin N → Nat) (hwf : WellFormed c dim)
    (ord : Nat → Nat) :
    ∃ s, plain c ord = .ok s ∧ s.num_processed = (N : Int) ∧ (∀ x, s.log.count x = 1) ∧
      (∀ x : Fin N, ∃ y : Fin N, mate s x = ((y : Nat) : Int)) ∧
      (∀ x : Fin N, 0 ≤ priority s x ∧ priority s x < (N : Int)) ∧
      (∀ x y : Fin N, mate s x = ((y : Nat) : Int) → mate s y = ((x : Nat) : Int)) := by
  obtain ⟨s, h1, h2, h3, h4⟩ := plain_inv c dim hwf ord
  refine ⟨s, h1, h3, fun x => List.count_eq_one_of_mem h2.core.nodup (h4 x), ?_,
    (h2.priority_bijection h4 h3).1, ?_⟩
  · intro x
    obtain ⟨y, hy, _⟩ := h2.involution h4 x
    exact ⟨y, hy⟩
  · intro x y hxy
    exact (h2.mate_eq x y (h4 x) hxy).1

theorem plain_complete_witness :
    WellFormed triangle triangleDim ∧
    ∃ s, plain triangle (fun t => 5 * t + 1) = .ok s ∧ s.num_processed = ((6 : Nat) : Int) ∧
      (∀ x, s.log.count x = 1) ∧
      (∀ x : Fin 6, ∃ y : Fin 6, mate s x = ((y : Nat) : Int)) ∧
      (∀ x : Fin 6, 0 ≤ priority s x ∧ priority s x < ((6 : Nat) : Int)) ∧
      (∀ x y : Fin 6, mate s x = ((y : Nat) : Int) → mate s y = ((x : Nat) : Int)) :=
  ⟨triangle_wellFormed,
    plain_complete triangle triangleDim triangle_wellFormed (fun t => 5 * t + 1)⟩

/-! ## What one iteration writes, and that it is never overwritten -/

theorem coreduce_fields (c : Complex N) (s : State N) (K Q : Fin N)
    (hfind : (c.boundary K).find? (fun x => decide (s.mate_ x = -1)) = some Q) :
    ∃ s1, coreduce c s K = .ok s1 ∧
      s1.mate_ = Function.update (Function.update s.mate_ K ((Q : Nat) : Int)) Q ((K : Nat) : Int) ∧
      s1.priority_ = Function.update (Function.update s.priority_ Q s.num_processed) K
        (s.num_processed + 1) ∧
      s1.log = s.log ++ [Q, K] ∧ s1.aces = s.aces := by
  have hco : coreduce c s K = .ok (process c (process c
      { s with coreducible := s.coreducible.erase K,
               mate_ := Function.update (Function.update s.mate_ K ((Q : Nat) : Int)) Q
                 ((K : Nat) : Int) } Q) K) := by
    simp only [coreduce, hfind]
  refine ⟨_, hco, ?_, ?_, ?_, ?_⟩
  · rw [process_mate, process_mate]
  · rw [process_priority, process_priority, process_num_processed]
  · rw [process_log, process_log]
    simp
  · rw [process_aces, process_aces]

theorem ace_fields (c : Complex N) (s : State N) (A : Fin N) :
    (ace c s A).mate_ = Function.update s.mate_ A ((A : Nat) : Int) ∧
    (ace c s A).priority_ = Function.update s.priority_ A s.num_processed ∧
    (ace c s A).log = s.log ++ [A] ∧ (ace c s A).aces = s.aces ++ [A] := by
  refine ⟨?_, ?_, ?_, ?_⟩
  · simp only [ace, process_mate]
  · simp only [ace, process_priority]
  · simp only [ace, process_log]
  · simp only [ace, process_aces]

/-- An iteration of the plain main loop leaves the mate and the priority of the cells
processed before it as they are. -/
theorem body_stable (c : Complex N) (hsq : BoundarySquaredZero c) (i : Nat) (s s1 : State N)
    (h : Inv c s) (hb : body c i s = .ok s1) :
    ∀ x ∈ s.log, x ∈ s1.log ∧ s1.mate_ x = s.mate_ x ∧ s1.priority_ x = s.priority_ x := by
  intro x hx
  simp only [body] at hb
  split_ifs at hb with hne
  · split at hb
    · cases hb
    · rename_i K hK
      obtain ⟨Q, hfind, _, hQlog, _, _, _, hKlog⟩ :=
        coreducible_face c hsq s K h (extract_mem _ _ _ hK)
      obtain ⟨s2, hs2, e1, e2, e3, _⟩ := coreduce_fields c s K Q hfind
      rw [hs2] at hb
      injection hb with hb
      subst hb
      have hxQ : x ≠ Q := fun e => hQlog (e ▸ hx)
      have hxK : x ≠ K := fun e => hKlog (e ▸ hx)
      rw [e1, e2, e3]
      refine ⟨List.mem_append_left _ hx, ?_, ?_⟩
      · rw [Function.update_noteq hxQ, Function.update_noteq hxK]
      · rw [Function.update_noteq hxK, Function.update_noteq hxQ]
  · split at hb
    · cases hb
    · rename_i A hA
      injection hb with hb
      subst hb
      have hAlog : A ∉ s.log := (((h.sets A).2).mp (extract_mem _ _ _ hA)).1
      have hxA : x ≠ A := fun e => hAlog (e ▸ hx)
      obtain ⟨e1, e2, e3, _⟩ := ace_fields c s A
      rw [e1, e2, e3]
      exact ⟨List.mem_append_left _ hx, Function.update_noteq hxA _ _,
        Function.update_noteq hxA _ _⟩

theorem headState_stable (c : Complex N) (dim : Fin N → Nat) (hwf : WellFormed c dim)
    (ord : Nat → Nat) (t : Nat) (s : State N) (hs : headState c ord t = .ok s) (k : Nat) :
    ∀ s1, headState c ord (t + k) = .ok s1 →
      ∀ x ∈ s.log, x ∈ s1.log ∧ s1.mate_ x = s.mate_ x ∧ s1.priority_ x = s.priority_ x := by
  induction k with
  | zero =>
    intro s1 hs1 x hx
    rw [Nat.add_zero, hs] at hs1
    injection hs1 with e
    subst e
    exact ⟨hx, rfl, rfl⟩
  | succ k ih =>
    intro s1 hs1 x hx
    obtain ⟨s0, hs0, hinv0⟩ := headState_inv c dim hwf ord (t + k)
    obtain ⟨h1, h2, h3⟩ := ih s0 hs0 x hx
    have hstep : headState c ord (t + k + 1) = .ok s1 := hs1
    simp only [headState, hs0] at hstep
    split_ifs at hstep
    · obtain ⟨g1, g2, g3⟩ := body_stable c hwf.squared _ s0 s1 hinv0 hstep x h1
      exact ⟨g1, g2.trans h2, g3.trans h3⟩
    · injection hstep with e
      subst e
      exact ⟨h1, h2, h3⟩

/-- On a well-formed complex, what the state at any evaluation of the loop condition holds
for its processed cells is what the plain constructor returns for them. -/
theorem final_stable (c : Complex N) (dim : Fin N → Nat) (hwf : WellFormed c dim)
    (ord : Nat → Nat) (f : State N) (hf : plain c ord = .ok f) (t : Nat) (s : State N)
    (hs : headState c ord t = .ok s) :
    ∀ x ∈ s.log, x ∈ f.log ∧ f.mate_ x = s.mate_ x ∧ f.priority_ x = s.priority_ x := by
  rw [plain_eq_headState] at hf
  by_cases hle : t ≤ N
  · have hf1 : headState c ord (t + (N - t)) = .ok f := by
      rw [show t + (N - t) = N by omega]; exact hf
    exact headState_stable c dim hwf ord t s hs (N - t) f hf1
  · have hs1 : headState c ord (N + (t - N)) = .ok s := by
      rw [show N + (t - N) = t by omega]; exact hs
    have h := headState_stable c dim hwf ord N f hf (t - N) s hs1
    obtain ⟨s0, hs0, hinv0⟩ := plain_inv c dim hwf ord
    rw [plain_eq_headState, hf] at hs0
    injection hs0 with e
    subst e
    intro x _
    have hall := hinv0.2.2 x
    have := h x hall
    exact ⟨hall, this.2.1.symm, this.2.2.symm⟩

/-- An iteration of the plain main loop that takes the coreduction branch with the cell `K`:
what is found, and what the state at the next evaluation of the loop condition holds. -/
theorem coreduction_step (c : Complex N) (dim : Fin N → Nat) (hwf : WellFormed c dim)
    (ord : Nat → Nat) (t : Nat) (s : State N) (K : Fin N)
    (hs : headState c ord t = .ok s) (hlt : s.num_processed < (N : Int))
    (hK : extract s.coreducible (ord t) = some K) :
    ∃ Q s1, (c.boundary K).find? (fun x => decide (s.mate_ x = -1)) = some Q ∧
      Q ∈ c.boundary K ∧ Q ∉ s.log ∧ K ∉ s.log ∧ Q ≠ K ∧
      (∀ z ∈ c.boundary K, z ∉ s.log → z = Q) ∧ (∀ z ∈ c.boundary Q, z ∈ s.log) ∧
      headState c ord (t + 1) = .ok s1 ∧
      s1.mate_ K = ((Q : Nat) : Int) ∧ s1.mate_ Q = ((K : Nat) : Int) ∧
      s1.priority_ Q = s.num_processed ∧ s1.priority_ K = s.num_processed + 1 ∧
      Q ∈ s1.log ∧ K ∈ s1.log ∧ s1.aces = s.aces := by
  obtain ⟨s0, hs0, hinv⟩ := headState_inv c dim hwf ord t
  rw [hs] at hs0
  injection hs0 with e
  subst e
  have hKmem := extract_mem _ _ _ hK
  obtain ⟨Q, hfind, hQmem, hQlog, huniq, hQfaces, hQK, hKlog⟩ :=
    coreducible_face c hwf.squared s K hinv hKmem
  obtain ⟨s1, hco, e1, e2, e3, e4⟩ := coreduce_fields c s K Q hfind
  have hne : s.coreducible.Nonempty := ⟨K, hKmem⟩
  have hnext : headState c ord (t + 1) = .ok s1 := by
    simp only [headState, hs, if_pos hlt, body, if_pos hne, hK]
    exact hco
  refine ⟨Q, s1, hfind, hQmem, hQlog, hKlog, hQK, huniq, hQfaces, hnext, ?_, ?_, ?_, ?_, ?_, ?_, e4⟩
  · rw [e1, Function.update_noteq (Ne.symm hQK), Function.update_same]
  · rw [e1, Function.update_same]
  · rw [e2, Function.update_noteq hQK, Function.update_same]
  · rw [e2, Function.update_same]
  · rw [e3]; simp
  · rw [e3]; simp

/-- The critical cells of a state that satisfies the invariant are the cells extracted in
the `else` branch. -/
theorem Inv.critical_iff {c : Complex N} {s : State N} (h : Inv c s) (x : Fin N)
    (hx : x ∈ s.log) : s.mate_ x = ((x : Nat) : Int) ↔ x ∈ s.aces := by
  constructor
  · intro hm
    rcases (h.paired.pair x hx) with ⟨y, _, h1, _, h3⟩
    have e : y = x := cast_inj (h1.symm.trans hm)
    subst e
    rcases h3 with h3 | h3 | h3
    · exact h3.2
    · have := h.core.prio_face y hx y h3.1
      omega
    · have := h.core.prio_face y hx y h3.1
      omega
  · intro ha
    exact (h.paired.aces x ha).2

/-! ## The claims, continued -/

/-- C11: on a well-formed complex and for every extraction order, whenever an iteration of
the plain main loop takes the coreduction branch with the cell `K`, the search finds a face
`Q` of `K`, `process` gives `Q` the current value of `num_processed` and `K` the next one,
and the constructor returns `K` and `Q` as mates with `priority K = priority Q + 1`, the
face having the strictly smaller priority. -/
theorem coreduction_pair_priority (c : Complex N) (dim : Fin N → Nat) (hwf : WellFormed c dim)
    (ord : Nat → Nat) :
    ∃ f, plain c ord = .ok f ∧
      ∀ (t : Nat) (s : State N) (K : Fin N), headState c ord t = .ok s →
        s.num_processed < (N : Int) → extract s.coreducible (ord t) = some K →
        ∃ Q, (c.boundary K).find? (fun x => decide (s.mate_ x = -1)) = some Q ∧
          Q ∈ c.boundary K ∧
          mate f K = ((Q : Nat) : Int) ∧ mate f Q = ((K : Nat) : Int) ∧
          priority f Q = s.num_processed ∧ priority f K = s.num_processed + 1 ∧
          priority f K = priority f Q + 1 ∧ priority f Q < priority f K := by
  obtain ⟨f, hf, _⟩ := plain_inv c dim hwf ord
  refine ⟨f, hf, ?_⟩
  intro t s K hs hlt hK
  obtain ⟨Q, s1, hfind, hQmem, _, _, _, _, _, hnext, m1, m2, p1, p2, l1, l2, _⟩ :=
    coreduction_step c dim hwf ord t s K hs hlt hK
  have hQ := final_stable c dim hwf ord f hf (t + 1) s1 hnext Q l1
  have hK1 := final_stable c dim hwf ord f hf (t + 1) s1 hnext K l2
  have eQ : priority f Q = s.num_processed := by
    unfold priority; rw [hQ.2.2, p1]
  have eK : priority f K = s.num_processed + 1 := by
    unfold priority; rw [hK1.2.2, p2]
  refine ⟨Q, hfind, hQmem, ?_, ?_, eQ, eK, ?_, ?_⟩
  · unfold mate; rw [hK1.2.1, m1]
  · unfold mate; rw [hQ.2.1, m2]
  · rw [eQ, eK]
  · rw [eQ, eK]; omega

theorem coreduction_pair_priority_witness :
    WellFormed triangle triangleDim ∧
    ∃ f, plain triangle (fun _ => 0) = .ok f ∧
      ∀ (t : Nat) (s : State 6) (K : Fin 6), headState triangle (fun _ => 0) t = .ok s →
        s.num_processed < ((6 : Nat) : Int) → extract s.coreducible ((fun _ => 0) t) = some K →
        ∃ Q, (triangle.boundary K).find? (fun x => decide (s.mate_ x = -1)) = some Q ∧
          Q ∈ triangle.boundary K ∧
          mate f K = ((Q : Nat) : Int) ∧ mate f Q = ((K : Nat) : Int) ∧
          priority f Q = s.num_processed ∧ priority f K = s.num_processed + 1 ∧
          priority f K = priority f Q + 1 ∧ priority f Q < priority f K :=
  ⟨triangle_wellFormed,
    coreduction_pair_priority triangle triangleDim triangle_wellFormed (fun _ => 0)⟩

/-! ## Priorities are positions in the order of processing -/

theorem getElem?_append_singleton (l : List (Fin N)) (y : Fin N) (i : Nat) (x : Fin N)
    (h : (l ++ [y])[i]? = some x) : l[i]? = some x ∨ (i = l.length ∧ x = y) := by
  by_cases hi : i < l.length
  · rw [List.getElem?_append_left hi] at h
    exact Or.inl h
  · right
    rw [List.getElem?_append_right (by omega)] at h
    have hlt : i - l.length < [y].length := by
      by_contra hcon
      rw [List.getElem?_eq_none (by omega)] at h
      cases h
    simp only [List.length_singleton] at hlt
    have hz : i - l.length = 0 := by omega
    rw [hz] at h
    simp only [List.getElem?_cons_zero, Option.some.injEq] at h
    exact ⟨by omega, h.symm⟩

theorem sequenced_append (s s1 : State N) (y : Fin N) (h : Sequenced s) (hy : y ∉ s.log)
    (hlog : s1.log = s.log ++ [y])
    (hprio : s1.priority_ = Function.update s.priority_ y (s.log.length : Int)) :
    Sequenced s1 := by
  intro i x hx
  rw [hlog] at hx
  rw [hprio]
  rcases getElem?_append_singleton _ _ _ _ hx with h1 | ⟨h1, h2⟩
  · have hxl : x ∈ s.log := List.getElem?_mem h1
    have hne : x ≠ y := fun e => hy (e ▸ hxl)
    rw [Function.update_noteq hne]
    exact h i x h1
  · subst h2
    rw [Function.update_same, h1]

theorem process_sequenced (c : Complex N) (s : State N) (y : Fin N) (h : Sequenced s)
    (hy : y ∉ s.log) (hnum : s.num_processed = (s.log.length : Int)) :
    Sequenced (process c s y) :=
  sequenced_append s _ y h hy (process_log c s y) (by rw [process_priority, hnum])

theorem Sequenced.of_fields {s s1 : State N} (h : Sequenced s) (hlog : s1.log = s.log)
    (hprio : s1.priority_ = s.priority_) : Sequenced s1 := by
  intro i x hx
  rw [hlog] at hx
  rw [hprio]
  exact h i x hx

theorem body_sequenced (c : Complex N) (hinv : Inverse c) (hsq : BoundarySquaredZero c)
    (i : Nat) (s s1 : State N) (h : Inv c s) (hseq : Sequenced s)
    (hb : body c i s = .ok s1) : Sequenced s1 := by
  simp only [body] at hb
  split_ifs at hb with hne
  · split at hb
    · cases hb
    · rename_i K hK
      obtain ⟨Q, hfind, hQmem, hQlog, _, hQfaces, hQK, hKlog⟩ :=
        coreducible_face c hsq s K h (extract_mem _ _ _ hK)
      simp only [coreduce, hfind] at hb
      injection hb with hb
      subst hb
      let s3 : State N :=
        { s with coreducible := s.coreducible.erase K,
                 mate_ := Function.update (Function.update s.mate_ K ((Q : Nat) : Int)) Q
                   ((K : Nat) : Int) }
      have hcore3 : Core c s3 := h.core.congr rfl rfl rfl rfl
      have hseq3 : Sequenced s3 := hseq.of_fields rfl rfl
      have hcore4 := process_core c hinv s3 Q hcore3 hQlog hQfaces
      have hseq4 := process_sequenced c s3 Q hseq3 hQlog hcore3.count
      apply process_sequenced c (process c s3 Q) K hseq4 _ hcore4.count
      rw [process_log, List.mem_append, List.mem_singleton]
      rintro (e | e)
      · exact hKlog e
      · exact hQK e.symm
  · split at hb
    · cases hb
    · rename_i A hA
      injection hb with hb
      subst hb
      have hAlog : A ∉ s.log := (((h.sets A).2).mp (extract_mem _ _ _ hA)).1
      exact process_sequenced c _ A (hseq.of_fields rfl rfl) hAlog h.core.count

theorem headState_sequenced (c : Complex N) (dim : Fin N → Nat) (hwf : WellFormed c dim)
    (ord : Nat → Nat) (t : Nat) :
    ∃ s, headState c ord t = .ok s ∧ Inv c s ∧ Sequenced s := by
  induction t with
  | zero =>
    refine ⟨init c, rfl, init_inv c, ?_⟩
    intro i x hx
    have hlog : (init c).log = [] :=
      (foldl_classify (fun x => ((c.boundary x).length : Int)) (List.finRange N) (start N)).2.2.2.1
    rw [hlog] at hx
    simp at hx
  | succ t ih =>
    obtain ⟨s, hs, h, hseq⟩ := ih
    simp only [headState, hs]
    split_ifs with hlt
    · obtain ⟨s1, hb, h1⟩ := body_inv c dim hwf (ord t) s h hlt
      exact ⟨s1, hb, h1, body_sequenced c hwf.inverse hwf.squared _ s s1 h hseq hb⟩
    · exact ⟨s, rfl, h, hseq⟩

/-- On a well-formed complex the plain constructor returns a state in which the priority of
every cell is its position in the order of processing. -/
theorem plain_sequenced (c : Complex N) (dim : Fin N → Nat) (hwf : WellFormed c dim)
    (ord : Nat → Nat) :
    ∃ s, plain c ord = .ok s ∧ Inv c s ∧ s.num_processed = (N : Int) ∧ (∀ x, x ∈ s.log) ∧
      Sequenced s := by
  obtain ⟨s, h1, h2, h3, h4⟩ := plain_inv c dim hwf ord
  obtain ⟨s1, g1, _, g3⟩ := headState_sequenced c dim hwf ord N
  rw [← plain_eq_headState, h1] at g1
  injection g1 with e
  subst e
  exact ⟨s, h1, h2, h3, h4, g3⟩

/-- In a sequenced state that satisfies the invariant, every initial segment of the order
of processing is closed under taking faces. -/
theorem Inv.segment_closed {c : Complex N} {s : State N} (h : Inv c s) (hseq : Sequenced s)
    (l r : List (Fin N)) (hlr : l ++ r = s.log) :
    ∀ x ∈ l, ∀ y ∈ c.boundary x, y ∈ l := by
  intro x hx y hy
  have hxs : x ∈ s.log := by rw [← hlr]; exact List.mem_append_left _ hx
  obtain ⟨i, hi, ei⟩ := List.mem_iff_getElem.mp hx
  have hxi : s.log[i]? = some x := by
    rw [← hlr, List.getElem?_append_left hi, List.getElem?_eq_getElem hi, ei]
  have hys : y ∈ s.log := h.core.closed x hxs y hy
  obtain ⟨j, hj⟩ := List.mem_iff_getElem?.mp hys
  have p1 := hseq i x hxi
  have p2 := hseq j y hj
  have p3 := h.core.prio_face x hxs y hy
  have hjl : j < l.length := by omega
  rw [← hlr, List.getElem?_append_left hjl] at hj
  exact List.getElem?_mem hj

/-! ## The head states of the graded main loop -/

theorem headStateG_eq (c : Complex N) (value : Fibration N) (hcl : Closure c value)
    (ord : Nat → Nat) (t : Nat) :
    headStateG c value ord t = (headState (restrict c value) ord t).map (regrade value) := by
  induction t with
  | zero =>
    simp only [headStateG, headState, initG_ok c value hcl]
    show _ = Except.ok (regrade value (init (restrict c value)))
    rw [regrade_init]
  | succ t ih =>
    simp only [headStateG, headState, ih]
    cases headState (restrict c value) ord t with
    | error e => rfl
    | ok p =>
      have hnp : (regrade value p).num_processed = p.num_processed := rfl
      show (if (regrade value p).num_processed < (N : Int)
        then bodyG c value (ord t) (regrade value p) else .ok (regrade value p))
        = Except.map (regrade value)
            (if p.num_processed < (N : Int) then body (restrict c value) (ord t) p else .ok p)
      rw [hnp]
      split_ifs
      · exact bodyG_regrade c value hcl (ord t) p
      · rfl

theorem graded_sequenced (c : Complex N) (dim : Fin N → Nat) (value : Fibration N)
    (hwf : WellFormed c dim) (hcl : Closure c value) (ord : Nat → Nat) :
    ∃ p, graded c value ord = .ok (regrade value p) ∧ Inv (restrict c value) p ∧
      p.num_processed = (N : Int) ∧ (∀ x, x ∈ p.log) ∧ Sequenced p := by
  obtain ⟨p, h1, h2, h3, h4, h5⟩ :=
    plain_sequenced (restrict c value) dim (restrict_wellFormed c dim value hwf hcl) ord
  refine ⟨p, ?_, h2, h3, h4, h5⟩
  rw [graded_eq c value hcl ord, h1]
  rfl

theorem mem_restrict_boundary (c : Complex N) (value : Fibration N) (x y : Fin N) :
    y ∈ (restrict c value).boundary x ↔ y ∈ c.boundary x ∧ value x = value y := by
  simp [restrict, List.mem_filter]

theorem restrict_const (c : Complex N) (k : Int) : restrict c (fun _ => k) = c := by
  cases c
  simp [restrict]

theorem closure_const (c : Complex N) (k : Int) : Closure c (fun _ => k) :=
  fun _ _ _ => le_refl k

theorem regrade_zero (p : State N) : regrade (fun _ => 0) p = p := by
  cases p
  simp [regrade, setPriority]

/-- C12: on a well-formed complex, for every fibration with the closure property and for
every extraction order, the graded constructor returns a result, so it never throws the
matching-consistency error; and whenever an iteration of the graded main loop takes the
coreduction branch with the cell `K`, `bd(K)` returns and the search finds in it a cell `Q`
with `value K = value Q`, so the check in front of the `throw` is false. -/
theorem graded_no_consistency_error (c : Complex N) (dim : Fin N → Nat) (value : Fibration N)
    (hwf : WellFormed c dim) (hcl : Closure c value) (ord : Nat → Nat) :
    (∃ s, graded c value ord = .ok s) ∧
    graded c value ord ≠ .error .consistencyViolation ∧
    (∀ t, ∃ s, headStateG c value ord t = .ok s ∧
      ∀ K, s.num_processed < (N : Int) → extract s.coreducible (ord t) = some K →
        ∃ b Q, bd c value K = .ok b ∧ b.find? (fun x => decide (s.mate_ x = -1)) = some Q ∧
          value K = value Q) := by
  obtain ⟨p, h1, _⟩ := graded_inv c dim value hwf hcl ord
  have hne : graded c value ord ≠ .error .consistencyViolation := by
    rw [h1]
    intro e
    cases e
  refine ⟨⟨_, h1⟩, hne, ?_⟩
  intro t
  have hwf1 := restrict_wellFormed c dim value hwf hcl
  obtain ⟨q, hq, _⟩ := headState_inv (restrict c value) dim hwf1 ord t
  refine ⟨regrade value q, by rw [headStateG_eq c value hcl ord t, hq]; rfl, ?_⟩
  intro K hlt hK
  obtain ⟨Q, _, hfind, hQmem, _⟩ :=
    coreduction_step (restrict c value) dim hwf1 ord t q K hq hlt hK
  exact ⟨_, Q, bd_ok c value K (hcl K), hfind,
    ((mem_restrict_boundary c value K Q).mp hQmem).2⟩

theorem graded_no_consistency_error_witness :
    WellFormed triangle triangleDim ∧ Closure triangle triangleValue ∧
    ((∃ s, graded triangle triangleValue (fun t => t) = .ok s) ∧
    graded triangle triangleValue (fun t => t) ≠ .error .consistencyViolation ∧
    (∀ t, ∃ s, headStateG triangle triangleValue (fun t => t) t = .ok s ∧
      ∀ K, s.num_processed < ((6 : Nat) : Int) →
        extract s.coreducible ((fun t => t) t) = some K →
        ∃ b Q, bd triangle triangleValue K = .ok b ∧
          b.find? (fun x => decide (s.mate_ x = -1)) = some Q ∧
          triangleValue K = triangleValue Q)) :=
  ⟨triangle_wellFormed, triangle_closure,
    graded_no_consistency_error triangle triangleDim triangleValue triangle_wellFormed
      triangle_closure (fun t => t)⟩

/-- C13: on a well-formed complex and for every extraction order, whenever an iteration of
the plain main loop extracts a cell `K` from the coreducible set, exactly one face `Q` of `K`
has an unset mate at that moment, and the search for the first face with an unset mate
returns `Q` for every order in which the boundary of `K` is enumerated. -/
theorem coreducible_unique_unset_face (c : Complex N) (dim : Fin N → Nat)
    (hwf : WellFormed c dim) (ord : Nat → Nat) :
    ∀ t, ∃ s, headState c ord t = .ok s ∧
      ∀ K, s.num_processed < (N : Int) → extract s.coreducible (ord t) = some K →
        ∃ Q, Q ∈ c.boundary K ∧ s.mate_ Q = -1 ∧
          (∀ x ∈ c.boundary K, s.mate_ x = -1 → x = Q) ∧
          ∀ l : List (Fin N), l.Perm (c.boundary K) →
            l.find? (fun x => decide (s.mate_ x = -1)) = some Q := by
  intro t
  obtain ⟨s, hs, hinv⟩ := headState_inv c dim hwf ord t
  refine ⟨s, hs, ?_⟩
  intro K hlt hK
  obtain ⟨Q, _, _, hQmem, hQlog, _, _, huniq, _⟩ :=
    coreduction_step c dim hwf ord t s K hs hlt hK
  have hunset : ∀ x, s.mate_ x = -1 ↔ x ∉ s.log := by
    intro x
    have := hinv.paired.set x
    tauto
  have huniq1 : ∀ x ∈ c.boundary K, s.mate_ x = -1 → x = Q :=
    fun x hx hm => huniq x hx ((hunset x).mp hm)
  refine ⟨Q, hQmem, (hunset Q).mpr hQlog, huniq1, ?_⟩
  intro l hl
  cases hfind : l.find? (fun x => decide (s.mate_ x = -1)) with
  | none =>
    exfalso
    rw [List.find?_eq_none] at hfind
    have := hfind Q (hl.mem_iff.mpr hQmem)
    simp only [decide_eq_true_eq] at this
    exact this ((hunset Q).mpr hQlog)
  | some q =>
    have h1 : q ∈ c.boundary K := hl.mem_iff.mp (List.mem_of_find?_eq_some hfind)
    have h2 := List.find?_some hfind
    simp only [decide_eq_true_eq] at h2
    rw [huniq1 q h1 h2]

theorem coreducible_unique_unset_face_witness :
    WellFormed triangle triangleDim ∧
    ∀ t, ∃ s, headState triangle (fun t => t) t = .ok s ∧
      ∀ K, s.num_processed < ((6 : Nat) : Int) →
        extract s.coreducible ((fun t => t) t) = some K →
        ∃ Q, Q ∈ triangle.boundary K ∧ s.mate_ Q = -1 ∧
          (∀ x ∈ triangle.boundary K, s.mate_ x = -1 → x = Q) ∧
          ∀ l : List (Fin 6), l.Perm (triangle.boundary K) →
            l.find? (fun x => decide (s.mate_ x = -1)) = some Q :=
  ⟨triangle_wellFormed,
    coreducible_unique_unset_face triangle triangleDim triangle_wellFormed (fun t => t)⟩

/-- C14: on a well-formed complex, at every evaluation of the condition of the plain main
loop, `boundary_count[x]` is the number of unprocessed faces of every unprocessed cell `x`,
the ace candidates are the unprocessed cells with boundary count 0, the coreducible cells
are the unprocessed cells with boundary count 1, and so the two sets are disjoint and hold
no processed cell. -/
theorem loop_condition_invariant (c : Complex N) (dim : Fin N → Nat) (hwf : WellFormed c dim)
    (ord : Nat → Nat) :
    ∀ t, ∃ s, headState c ord t = .ok s ∧
      (∀ x, x ∉ s.log → s.boundary_count x = (unprocessedFaces c s x : Int)) ∧
      (∀ x, x ∈ s.ace_candidates ↔ x ∉ s.log ∧ s.boundary_count x = 0) ∧
      (∀ x, x ∈ s.coreducible ↔ x ∉ s.log ∧ s.boundary_count x = 1) ∧
      Disjoint s.coreducible s.ace_candidates ∧
      (∀ x ∈ s.log, x ∉ s.coreducible ∧ x ∉ s.ace_candidates) := by
  intro t
  obtain ⟨s, hs, hinv⟩ := headState_inv c dim hwf ord t
  refine ⟨s, hs, fun x _ => hinv.core.bc x, fun x => (hinv.sets x).2, fun x => (hinv.sets x).1,
    ?_, ?_⟩
  · rw [Finset.disjoint_left]
    intro x h1 h2
    have e1 := ((hinv.sets x).1.mp h1).2
    have e2 := ((hinv.sets x).2.mp h2).2
    omega
  · intro x hx
    exact ⟨fun h => ((hinv.sets x).1.mp h).1 hx, fun h => ((hinv.sets x).2.mp h).1 hx⟩

theorem loop_condition_invariant_witness :
    WellFormed triangle triangleDim ∧
    ∀ t, ∃ s, headState triangle (fun _ => 1) t = .ok s ∧
      (∀ x, x ∉ s.log → s.boundary_count x = (unprocessedFaces triangle s x : Int)) ∧
      (∀ x, x ∈ s.ace_candidates ↔ x ∉ s.log ∧ s.boundary_count x = 0) ∧
      (∀ x, x ∈ s.coreducible ↔ x ∉ s.log ∧ s.boundary_count x = 1) ∧
      Disjoint s.coreducible s.ace_candidates ∧
      (∀ x ∈ s.log, x ∉ s.coreducible ∧ x ∉ s.ace_candidates) :=
  ⟨triangle_wellFormed,
    loop_condition_invariant triangle triangleDim triangle_wellFormed (fun _ => 1)⟩

theorem ace_step (c : Complex N) (ord : Nat → Nat) (t : Nat) (s : State N) (A : Fin N)
    (hs : headState c ord t = .ok s) (hlt : s.num_processed < (N : Int))
    (hne : ¬ s.coreducible.Nonempty) (hA : extract s.ace_candidates (ord t) = some A) :
    headState c ord (t + 1) = .ok (ace c s A) := by
  simp only [headState, hs, if_pos hlt, body, if_neg hne, hA]

/-- C15: on a well-formed complex and for every extraction order, in the result of the plain
constructor `mate x = x` holds exactly for the cells `x` extracted in the `else` branch (the
ghost list `aces`); a cell `A` extracted in the `else` branch of an iteration ends with
`mate A = A`, and the cells `K` and `Q` of an iteration that takes the coreduction branch
end with `mate K ≠ K` and `mate Q ≠ Q`. -/
theorem critical_iff_ace_branch (c : Complex N) (dim : Fin N → Nat) (hwf : WellFormed c dim)
    (ord : Nat → Nat) :
    ∃ f, plain c ord = .ok f ∧
      (∀ x, mate f x = ((x : Nat) : Int) ↔ x ∈ f.aces) ∧
      (∀ (t : Nat) (s : State N) (A : Fin N), headState c ord t = .ok s →
        s.num_processed < (N : Int) → ¬ s.coreducible.Nonempty →
        extract s.ace_candidates (ord t) = some A → mate f A = ((A : Nat) : Int)) ∧
      (∀ (t : Nat) (s : State N) (K : Fin N), headState c ord t = .ok s →
        s.num_processed < (N : Int) → extract s.coreducible (ord t) = some K →
        ∃ Q, (c.boundary K).find? (fun x => decide (s.mate_ x = -1)) = some Q ∧
          mate f K ≠ ((K : Nat) : Int) ∧ mate f Q ≠ ((Q : Nat) : Int) ∧
          K ∉ f.aces ∧ Q ∉ f.aces) := by
  obtain ⟨f, hf, hinv, _, hall⟩ := plain_inv c dim hwf ord
  have hcrit : ∀ x, mate f x = ((x : Nat) : Int) ↔ x ∈ f.aces :=
    fun x => hinv.critical_iff x (hall x)
  refine ⟨f, hf, hcrit, ?_, ?_⟩
  · intro t s A hs hlt hne hA
    have hnext := ace_step c ord t s A hs hlt hne hA
    obtain ⟨e1, _, e3, _⟩ := ace_fields c s A
    have hmem : A ∈ (ace c s A).log := by rw [e3]; simp
    have := final_stable c dim hwf ord f hf (t + 1) _ hnext A hmem
    unfold mate
    rw [this.2.1, e1, Function.update_same]
  · intro t s K hs hlt hK
    obtain ⟨Q, s1, hfind, _, _, _, hQK, _, _, hnext, m1, m2, _, _, l1, l2, _⟩ :=
      coreduction_step c dim hwf ord t s K hs hlt hK
    have hQ := final_stable c dim hwf ord f hf (t + 1) s1 hnext Q l1
    have hK1 := final_stable c dim hwf ord f hf (t + 1) s1 hnext K l2
    have mK : mate f K ≠ ((K : Nat) : Int) := by
      unfold mate
      rw [hK1.2.1, m1]
      exact fun e => hQK (cast_inj e)
    have mQ : mate f Q ≠ ((Q : Nat) : Int) := by
      unfold mate
      rw [hQ.2.1, m2]
      exact fun e => hQK (cast_inj e).symm
    exact ⟨Q, hfind, mK, mQ, fun h => mK ((hcrit K).mpr h), fun h => mQ ((hcrit Q).mpr h)⟩

theorem critical_iff_ace_branch_witness :
    WellFormed triangle triangleDim ∧
    ∃ f, plain triangle (fun t => t) = .ok f ∧
      (∀ x, mate f x = ((x : Nat) : Int) ↔ x ∈ f.aces) ∧
      (∀ (t : Nat) (s : State 6) (A : Fin 6), headState triangle (fun t => t) t = .ok s →
        s.num_processed < ((6 : Nat) : Int) → ¬ s.coreducible.Nonempty →
        extract s.ace_candidates ((fun t => t) t) = some A → mate f A = ((A : Nat) : Int)) ∧
      (∀ (t : Nat) (s : State 6) (K : Fin 6), headState triangle (fun t => t) t = .ok s →
        s.num_processed < ((6 : Nat) : Int) →
        extract s.coreducible ((fun t => t) t) = some K →
        ∃ Q, (triangle.boundary K).find? (fun x => decide (s.mate_ x = -1)) = some Q ∧
          mate f K ≠ ((K : Nat) : Int) ∧ mate f Q ≠ ((Q : Nat) : Int) ∧
          K ∉ f.aces ∧ Q ∉ f.aces) :=
  ⟨triangle_wellFormed,
    critical_iff_ace_branch triangle triangleDim triangle_wellFormed (fun t => t)⟩

theorem towerWithPoint_inverse : Inverse towerWithPoint := by
  unfold Inverse; decide

theorem regrade_priority (value : Fibration N) (p : State N) (x : Fin N) (hx : x ∈ p.log) :
    priority (regrade value p) x = value x * (N : Int) + priority p x := by
  simp [priority, regrade, setPriority, hx]

theorem regrade_priority_of_not_mem (value : Fibration N) (p : State N) (x : Fin N)
    (hx : x ∉ p.log) : priority (regrade value p) x = priority p x := by
  simp [priority, regrade, setPriority, hx]

theorem grade_lt_priority_lt (n : Nat) (a b sx sy : Int) (h : a < b) (hx : sx < (n : Int))
    (hy : 0 ≤ sy) : a * (n : Int) + sx < b * (n : Int) + sy := by
  have hN : (0 : Int) ≤ (n : Int) := Int.natCast_nonneg n
  have hmul : (a + 1) * (n : Int) ≤ b * (n : Int) :=
    Int.mul_le_mul_of_nonneg_right (by omega) hN
  have hexp : (a + 1) * (n : Int) = a * (n : Int) + (n : Int) := by ring
  omega

/-! ## The graded constructor in machine arithmetic -/

theorem wrap_of_fits (x : Int) (h1 : -9223372036854775808 ≤ x) (h2 : x < 9223372036854775808) :
    wrap x = x := by
  unfold wrap
  omega

theorem State.eq_of_fields {s t : State N} (h1 : s.mate_ = t.mate_)
    (h2 : s.priority_ = t.priority_) (h3 : s.num_processed = t.num_processed)
    (h4 : s.boundary_count = t.boundary_count) (h5 : s.coreducible = t.coreducible)
    (h6 : s.ace_candidates = t.ace_candidates) (h7 : s.log = t.log) (h8 : s.aces = t.aces) :
    s = t := by
  cases s
  cases t
  simp only at h1 h2 h3 h4 h5 h6 h7 h8
  subst h1 h2 h3 h4 h5 h6 h7 h8
  rfl

/-- The order in which two cofaces are visited by the loop of `process` does not matter. -/
theorem touch_comm (s : State N) (a b : Fin N) :
    touch (touch s a) b = touch (touch s b) a := by
  by_cases hab : a = b
  · rw [hab]
  · have hba : b ≠ a := fun e => hab e.symm
    apply State.eq_of_fields
    · rw [touch_mate, touch_mate, touch_mate, touch_mate]
    · rw [touch_priority, touch_priority, touch_priority, touch_priority]
    · rw [touch_num_processed, touch_num_processed, touch_num_processed, touch_num_processed]
    · funext x
      rw [touch_boundary_count, touch_boundary_count, touch_boundary_count,
        touch_boundary_count, touch_boundary_count, touch_boundary_count]
      simp only [if_neg hab, if_neg hba]
      by_cases h1 : x = a
      · subst h1; simp [hab]
      · simp [h1]
    · ext x
      rw [touch_coreducible, touch_coreducible, touch_coreducible, touch_coreducible,
        touch_boundary_count, touch_boundary_count, touch_coreducible, touch_coreducible]
      simp only [if_neg hab, if_neg hba]
      by_cases h1 : x = a
      · subst h1; simp [hab]
      · simp [h1]
    · ext x
      rw [touch_ace_candidates, touch_ace_candidates, touch_ace_candidates,
        touch_ace_candidates, touch_boundary_count, touch_boundary_count,
        touch_ace_candidates, touch_ace_candidates]
      simp only [if_neg hab, if_neg hba]
      by_cases h1 : x = a
      · subst h1; simp [hab]
      · simp [h1]
    · rw [touch_log, touch_log, touch_log, touch_log]
    · rw [touch_aces, touch_aces, touch_aces, touch_aces]

theorem foldl_touch_perm (l1 l2 : List (Fin N)) (h : l1.Perm l2) (s : State N) :
    l1.foldl touch s = l2.foldl touch s :=
  h.foldl_eq' (fun x _ y _ z => touch_comm z x y) s

theorem find_of_perm_unique (l1 l2 : List (Fin N)) (h : l1.Perm l2) (p : Fin N → Bool)
    (Q : Fin N) (hQ : Q ∈ l2) (hp : p Q = true) (huniq : ∀ x ∈ l2, p x = true → x = Q) :
    l1.find? p = some Q := by
  cases hfind : l1.find? p with
  | none =>
    rw [List.find?_eq_none] at hfind
    exact absurd hp (hfind Q (h.mem_iff.mpr hQ))
  | some q =>
    rw [huniq q (h.mem_iff.mp (List.mem_of_find?_eq_some hfind)) (List.find?_some hfind)]

theorem processM_regradeM (c : Complex N) (value : Fibration N)
    (enum : List (Fin N) → List (Fin N)) (hperm : ∀ l, (enum l).Perm l)
    (s : State N) (y : Fin N) :
    processM c value enum (regradeM value s) y
      = regradeM value (process (restrict c value) s y) := by
  have hF : (fun x => if x ∈ s.log ++ [y]
        then wrap (value x * (N : Int) + Function.update s.priority_ y s.num_processed x)
        else Function.update s.priority_ y s.num_processed x)
      = Function.update
          (fun x => if x ∈ s.log then wrap (value x * (N : Int) + s.priority_ x)
            else s.priority_ x)
          y (wrap (value y * (N : Int) + s.num_processed)) := by
    funext x
    by_cases hx : x = y
    · subst hx; simp
    · simp [hx, Function.update_noteq hx]
  unfold regradeM
  rw [process_log, process_priority, hF]
  unfold processM process
  rw [foldl_touch_perm _ _ (hperm (cbd c value y)), cbd_eq, ← foldl_touch_setPriority]
  rfl

theorem aceM_regradeM (c : Complex N) (value : Fibration N)
    (enum : List (Fin N) → List (Fin N)) (hperm : ∀ l, (enum l).Perm l)
    (s : State N) (A : Fin N) :
    aceM c value enum (regradeM value s) A = regradeM value (ace (restrict c value) s A) := by
  exact processM_regradeM c value enum hperm
    { s with ace_candidates := s.ace_candidates.erase A, aces := s.aces ++ [A],
             mate_ := Function.update s.mate_ A (A : Int) } A

theorem coreduceM_regradeM (c : Complex N) (value : Fibration N) (hcl : Closure c value)
    (enum : List (Fin N) → List (Fin N)) (hperm : ∀ l, (enum l).Perm l)
    (hsq : BoundarySquaredZero (restrict c value)) (s : State N) (K : Fin N)
    (h : Inv (restrict c value) s) (hK : K ∈ s.coreducible) :
    coreduceM c value enum (regradeM value s) K
      = (coreduce (restrict c value) s K).map (regradeM value) := by
  obtain ⟨Q, hfind, hQmem, hQlog, huniq, _, _, _⟩ :=
    coreducible_face (restrict c value) hsq s K h hK
  have hunset : ∀ x, s.mate_ x = -1 ↔ x ∉ s.log := by
    intro x
    have := h.paired.set x
    tauto
  have hfindM : (enum ((restrict c value).boundary K)).find?
      (fun x => decide (s.mate_ x = -1)) = some Q := by
    apply find_of_perm_unique _ _ (hperm _) _ Q hQmem
    · simpa using (hunset Q).mpr hQlog
    · intro x hx hp
      exact huniq x hx ((hunset x).mp (by simpa using hp))
  have hval : value K = value Q := ((mem_restrict_boundary c value K Q).mp hQmem).2
  have hm : (regradeM value s).mate_ = s.mate_ := rfl
  unfold coreduceM coreduce
  simp only [bd_ok c value K (hcl K), hm, hfindM, hfind, ne_eq, hval, not_true_eq_false,
    if_false]
  have key := processM_regradeM c value enum hperm
    { s with coreducible := s.coreducible.erase K,
             mate_ := Function.update (Function.update s.mate_ K (Q : Int)) Q (K : Int) } Q
  show Except.ok (processM c value enum (processM c value enum (regradeM value
      { s with coreducible := s.coreducible.erase K,
               mate_ := Function.update (Function.update s.mate_ K (Q : Int)) Q (K : Int) }) Q)
      K) = _
  rw [key, processM_regradeM c value enum hperm]
  rfl

theorem bodyM_regradeM (c : Complex N) (value : Fibration N) (hcl : Closure c value)
    (enum : List (Fin N) → List (Fin N)) (hperm : ∀ l, (enum l).Perm l)
    (hsq : BoundarySquaredZero (restrict c value)) (i : Nat) (s : State N)
    (h : Inv (restrict c value) s) :
    bodyM c value enum i (regradeM value s)
      = (body (restrict c value) i s).map (regradeM value) := by
  unfold bodyM body
  have h1 : (regradeM value s).coreducible = s.coreducible := rfl
  have h2 : (regradeM value s).ace_candidates = s.ace_candidates := rfl
  rw [h1, h2]
  split_ifs
  · cases hK : extract s.coreducible i with
    | none => rfl
    | some K =>
      exact coreduceM_regradeM c value hcl enum hperm hsq s K h (extract_mem _ _ _ hK)
  · cases extract s.ace_candidates i with
    | none => rfl
    | some A =>
      show Except.ok (aceM c value enum (regradeM value s) A) = _
      rw [aceM_regradeM c value enum hperm]
      rfl

theorem loopM_regradeM (c : Complex N) (dim : Fin N → Nat) (value : Fibration N)
    (hwf : WellFormed (restrict c value) dim) (hcl : Closure c value)
    (enum : List (Fin N) → List (Fin N)) (hperm : ∀ l, (enum l).Perm l)
    (ord : Nat → Nat) (fuel : Nat) :
    ∀ (t : Nat) (s : State N), Inv (restrict c value) s →
      loopM c value enum ord fuel t (regradeM value s)
        = (loop (restrict c value) ord fuel t s).map (regradeM value) := by
  have hnp : ∀ s : State N, (regradeM value s).num_processed = s.num_processed := fun _ => rfl
  induction fuel with
  | zero =>
    intro t s _
    simp only [loopM, loop, hnp]
    split_ifs <;> rfl
  | succ fuel ih =>
    intro t s h
    simp only [loopM, loop, hnp]
    split_ifs with hlt
    · rw [bodyM_regradeM c value hcl enum hperm hwf.squared (ord t) s h]
      obtain ⟨s1, hb, h1⟩ := body_inv (restrict c value) dim hwf (ord t) s h hlt
      rw [hb]
      exact ih (t + 1) s1 h1
    · rfl

theorem regradeM_of_log_nil (value : Fibration N) (s : State N) (h : s.log = []) :
    regradeM value s = s := by
  cases s
  simp only at h
  subst h
  simp [regradeM, setPriority]

/-- On a well-formed complex with a fibration that has the closure property, and for every
enumeration order of the chains, the graded constructor in machine arithmetic returns the
final state of the plain constructor on the restricted complex with the priorities as the
graded `process` stores them. -/
theorem gradedM_inv (c : Complex N) (dim : Fin N → Nat) (value : Fibration N)
    (hwf : WellFormed c dim) (hcl : Closure c value)
    (enum : List (Fin N) → List (Fin N)) (hperm : ∀ l, (enum l).Perm l) (ord : Nat → Nat) :
    ∃ p, plain (restrict c value) ord = .ok p ∧
      gradedM c value enum ord = .ok (regradeM value p) ∧ Inv (restrict c value) p ∧
      p.num_processed = (N : Int) ∧ (∀ x, x ∈ p.log) ∧ Sequenced p := by
  have hwf1 := restrict_wellFormed c dim value hwf hcl
  obtain ⟨p, h1, h2, h3, h4, h5⟩ := plain_sequenced (restrict c value) dim hwf1 ord
  refine ⟨p, h1, ?_, h2, h3, h4, h5⟩
  have hinit : regradeM value (init (restrict c value)) = init (restrict c value) :=
    regradeM_of_log_nil value _
      (foldl_classify (fun x => (((restrict c value).boundary x).length : Int))
        (List.finRange N) (start N)).2.2.2.1
  unfold gradedM
  rw [initG_ok c value hcl]
  simp only []
  rw [← hinit, loopM_regradeM c dim value hwf1 hcl enum hperm ord N 0 _ (init_inv _)]
  unfold plain at h1
  rw [h1]
  rfl

theorem regradeM_priority (value : Fibration N) (p : State N) (x : Fin N) (hx : x ∈ p.log) :
    priority (regradeM value p) x = wrap (value x * (N : Int) + priority p x) := by
  simp [priority, regradeM, setPriority, hx]

/-- When the arithmetic is exact, the graded `process` stores `value x * N + n` itself for
every sequence number `n` in `[0,N)`. -/
theorem wrap_of_exact (value : Fibration N) (hex : Exact value) (x : Fin N) (n : Int)
    (h0 : 0 ≤ n) (hN : n < (N : Int)) :
    wrap (value x * (N : Int) + n) = value x * (N : Int) + n := by
  have := hex x
  exact wrap_of_fits _ (by omega) (by omega)

theorem triangleHuge_closure : Closure triangle triangleHuge := by
  unfold Closure; decide

theorem triangleCollide_closure : Closure triangle triangleCollide := by
  unfold Closure; decide

theorem triangleValue_exact : Exact triangleValue := by
  unfold Exact; decide

theorem fan_inverse : Inverse fan := by
  unfold Inverse; decide

/-! ## The claims on the graded constructor in machine arithmetic -/

/-- C16, as stated, fails, in three ways.  On `towerWithPoint` both constructors return
after five calls of `process` without having processed the cell `4`, whose priority stays
`0` in both results, not `1*5 + 0` for the constant fibration `1`.  On `fan` the cell `4` is
extracted as coreducible while its faces `5` and `6` both have an unset mate; the plain
constructor pairs it with the first of them in the order of the boundary, the graded
constructor, whose chain `bd(4)` is enumerated in the reverse order, with the other.  On the
triangle edge complex, which is well-formed, the constant fibration `2^62` makes the graded
priority of the cell `0` wrap to `-2^63`, not `2^62*6 + 0`. -/
theorem constant_fibration_counterexample :
    (Inverse towerWithPoint ∧
      ∃ p g, plain towerWithPoint (fun _ => 0) = .ok p ∧
        gradedM towerWithPoint (fun _ => 1) id (fun _ => 0) = .ok g ∧
        (4 : Fin 5) ∉ p.log ∧ priority p 4 = 0 ∧ priority g 4 = 0 ∧
        priority g 4 ≠ 1 * ((5 : Nat) : Int) + priority p 4) ∧
    (Inverse fan ∧
      ∃ p g, plain fan (fun _ => 0) = .ok p ∧
        gradedM fan (fun _ => 0) List.reverse (fun _ => 0) = .ok g ∧
        mate p 4 = 5 ∧ mate g 4 = 6) ∧
    (WellFormed triangle triangleDim ∧
      ∃ p g, plain triangle (fun _ => 0) = .ok p ∧
        gradedM triangle (fun _ => 4611686018427387904) id (fun _ => 0) = .ok g ∧
        priority p 0 = 0 ∧ priority g 0 = -9223372036854775808 ∧
        priority g 0 ≠ 4611686018427387904 * ((6 : Nat) : Int) + priority p 0) := by
  have a1 : returns (plain towerWithPoint (fun _ => 0)) (fun p =>
      decide ((4 : Fin 5) ∉ p.log ∧ priority p 4 = 0)) = true := by decide
  have a2 : returns (gradedM towerWithPoint (fun _ => 1) id (fun _ => 0)) (fun g =>
      decide (priority g 4 = 0)) = true := by decide
  have b1 : returns (plain fan (fun _ => 0)) (fun p => decide (mate p 4 = 5)) = true := by
    decide
  have b2 : returns (gradedM fan (fun _ => 0) List.reverse (fun _ => 0)) (fun g =>
      decide (mate g 4 = 6)) = true := by decide
  have c1 : returns (plain triangle (fun _ => 0)) (fun p =>
      decide (priority p 0 = 0)) = true := by decide
  have c2 : returns (gradedM triangle (fun _ => 4611686018427387904) id (fun _ => 0))
      (fun g => decide (priority g 0 = -9223372036854775808)) = true := by decide
  obtain ⟨pa, ha1, ha2⟩ := (returns_iff _ _).mp a1
  obtain ⟨ga, ha3, ha4⟩ := (returns_iff _ _).mp a2
  obtain ⟨pb, hb1, hb2⟩ := (returns_iff _ _).mp b1
  obtain ⟨gb, hb3, hb4⟩ := (returns_iff _ _).mp b2
  obtain ⟨pc, hc1, hc2⟩ := (returns_iff _ _).mp c1
  obtain ⟨gc, hc3, hc4⟩ := (returns_iff _ _).mp c2
  have ea := of_decide_eq_true ha2
  have ga4 := of_decide_eq_true ha4
  have ec := of_decide_eq_true hc2
  have gc0 := of_decide_eq_true hc4
  refine ⟨⟨towerWithPoint_inverse, pa, ga, ha1, ha3, ea.1, ea.2, ga4, ?_⟩,
    ⟨fan_inverse, pb, gb, hb1, hb3, of_decide_eq_true hb2, of_decide_eq_true hb4⟩,
    ⟨triangle_wellFormed, pc, gc, hc1, hc3, ec, gc0, ?_⟩⟩
  · rw [ga4, ea.2]; decide
  · rw [gc0, ec]; decide

/-- C16, amended: for every well-formed complex of size `N`, every constant fibration
`value x = k` on it for which the arithmetic is exact (`k*N` and `k*N + N` in the range of
`Integer`), every enumeration order of the chains and the same extraction choices, the
graded and the plain constructor return the same mate array, and the graded priority of
every cell is `k*N` plus its plain priority; with `k = 0` the two results are identical. -/
theorem constant_fibration (c : Complex N) (dim : Fin N → Nat) (k : Int)
    (hwf : WellFormed c dim) (hex : Exact (fun _ : Fin N => k))
    (enum : List (Fin N) → List (Fin N)) (hperm : ∀ l, (enum l).Perm l) (ord : Nat → Nat) :
    ∃ p g, plain c ord = .ok p ∧ gradedM c (fun _ => k) enum ord = .ok g ∧
      (∀ x, mate g x = mate p x) ∧
      (∀ x, priority g x = k * (N : Int) + priority p x) ∧
      (k = 0 → g = p) := by
  obtain ⟨p, hp, hg, hinv, hN, hall, _⟩ :=
    gradedM_inv c dim (fun _ => k) hwf (closure_const c k) enum hperm ord
  rw [restrict_const] at hp hinv
  have hprio : ∀ x, priority (regradeM (fun _ => k) p) x = k * (N : Int) + priority p x := by
    intro x
    have r := hinv.core.prio_range x (hall x)
    rw [regradeM_priority _ p x (hall x)]
    have hlt : priority p x < (N : Int) := by unfold priority; omega
    exact wrap_of_exact (fun _ => k) hex x (priority p x) r.1 hlt
  refine ⟨p, regradeM (fun _ => k) p, hp, hg, fun _ => rfl, hprio, ?_⟩
  intro hk
  refine State.eq_of_fields rfl ?_ rfl rfl rfl rfl rfl rfl
  funext x
  have := hprio x
  unfold priority at this
  rw [this, hk]
  simp

theorem constant_fibration_witness :
    WellFormed triangle triangleDim ∧ Exact (fun _ : Fin 6 => (2 : Int)) ∧
    (∀ l : List (Fin 6), (List.reverse l).Perm l) ∧
    ∃ p g, plain triangle (fun t => t) = .ok p ∧
      gradedM triangle (fun _ => 2) List.reverse (fun t => t) = .ok g ∧
      (∀ x, mate g x = mate p x) ∧
      (∀ x, priority g x = 2 * ((6 : Nat) : Int) + priority p x) ∧
      ((2 : Int) = 0 → g = p) :=
  ⟨triangle_wellFormed, by unfold Exact; decide, fun l => List.reverse_perm l,
    constant_fibration triangle triangleDim 2 triangle_wellFormed (by unfold Exact; decide)
      List.reverse (fun l => List.reverse_perm l) (fun t => t)⟩

/-- C17, as stated, fails for the graded constructor, in two ways, both on the triangle edge
complex, which is well-formed, with a fibration that has the closure property.  With the
edge `5` of grade 1, `5` has no face of its grade and is an ace candidate from the start;
extracted first, it is processed before its faces `0` and `2`, so the processed cells are
not closed under taking faces.  With the edge `5` of grade `2^62`, the priority of `5`
wraps to a negative value, below the priority of its face `0`. -/
theorem processed_faces_counterexample :
    WellFormed triangle triangleDim ∧ (0 : Fin 6) ∈ triangle.boundary 5 ∧
    (Closure triangle triangleValue ∧
      ∃ g, gradedM triangle triangleValue id (fun _ => 3) = .ok g ∧
        g.log = [5, 0, 1, 3, 2, 4] ∧
        ¬ (∀ l r : List (Fin 6), l ++ r = g.log →
            ∀ x ∈ l, ∀ y ∈ triangle.boundary x, y ∈ l)) ∧
    (Closure triangle triangleHuge ∧
      ∃ g, gradedM triangle triangleHuge id (fun _ => 0) = .ok g ∧
        priority g 5 = -9223372036854775803 ∧ priority g 0 = 0 ∧
        ¬ priority g 0 < priority g 5) := by
  have hg : returns (gradedM triangle triangleValue id (fun _ => 3)) (fun g =>
      decide (g.log = [5, 0, 1, 3, 2, 4])) = true := by
    decide
  have hh : returns (gradedM triangle triangleHuge id (fun _ => 0)) (fun g =>
      decide (priority g 5 = -9223372036854775803 ∧ priority g 0 = 0)) = true := by
    decide
  obtain ⟨g, hg1, hg2⟩ := (returns_iff _ _).mp hg
  obtain ⟨h, hh1, hh2⟩ := (returns_iff _ _).mp hh
  have hlog := of_decide_eq_true hg2
  have hpr := of_decide_eq_true hh2
  refine ⟨triangle_wellFormed, by decide, ⟨triangle_closure, g, hg1, hlog, ?_⟩,
    ⟨triangleHuge_closure, h, hh1, hpr.1, hpr.2, ?_⟩⟩
  · intro hcon
    have := hcon [5] [0, 1, 3, 2, 4] (by rw [hlog]; rfl) 5 (by simp) 0 (by decide)
    exact absurd this (by decide)
  · rw [hpr.1, hpr.2]; decide

/-- C17, amended: on a well-formed complex and for every extraction order, whenever `y` is a
face of `x`, `priority y < priority x`, in the result of the plain constructor and, for
every fibration with the closure property for which the arithmetic is exact (`value x * N`
and `value x * N + N` in the range of `Integer`), in the result of the graded constructor
(for faces of the same and of lower grade alike, and for every enumeration order of the
chains).  In plain mode, equivalently, the cells processed so far are closed under taking
faces after every call of `process`; in graded mode they are closed under taking faces of
the same grade. -/
theorem priority_extends_faces (c : Complex N) (dim : Fin N → Nat) (value : Fibration N)
    (hwf : WellFormed c dim) (hcl : Closure c value) (hex : Exact value)
    (enum : List (Fin N) → List (Fin N)) (hperm : ∀ l, (enum l).Perm l) (ord : Nat → Nat) :
    (∃ f, plain c ord = .ok f ∧
      (∀ x, ∀ y ∈ c.boundary x, priority f y < priority f x) ∧
      (∀ l r : List (Fin N), l ++ r = f.log → ∀ x ∈ l, ∀ y ∈ c.boundary x, y ∈ l)) ∧
    (∃ g, gradedM c value enum ord = .ok g ∧
      (∀ x, ∀ y ∈ c.boundary x, priority g y < priority g x) ∧
      (∀ l r : List (Fin N), l ++ r = g.log →
        ∀ x ∈ l, ∀ y ∈ c.boundary x, value y = value x → y ∈ l)) := by
  constructor
  · obtain ⟨f, hf, hinv, _, hall, hseq⟩ := plain_sequenced c dim hwf ord
    exact ⟨f, hf, fun x y hy => hinv.core.prio_face x (hall x) y hy,
      fun l r hlr => hinv.segment_closed hseq l r hlr⟩
  · obtain ⟨p, _, hg, hinv, hN, hall, hseq⟩ := gradedM_inv c dim value hwf hcl enum hperm ord
    refine ⟨regradeM value p, hg, ?_, ?_⟩
    · intro x y hy
      have rx := hinv.core.prio_range x (hall x)
      have ry := hinv.core.prio_range y (hall y)
      have hxN : priority p x < (N : Int) := by unfold priority; omega
      have hyN : priority p y < (N : Int) := by unfold priority; omega
      rw [regradeM_priority value p x (hall x), regradeM_priority value p y (hall y),
        wrap_of_exact value hex x (priority p x) rx.1 hxN,
        wrap_of_exact value hex y (priority p y) ry.1 hyN]
      unfold priority
      rcases lt_or_eq_of_le (hcl x y hy) with hlt | heq
      · exact grade_lt_priority_lt N _ _ _ _ hlt (by omega) rx.1
      · have hy1 : y ∈ (restrict c value).boundary x :=
          (mem_restrict_boundary c value x y).mpr ⟨hy, heq.symm⟩
        have := hinv.core.prio_face x (hall x) y hy1
        rw [heq]
        omega
    · intro l r hlr x hx y hy hval
      have hlr1 : l ++ r = p.log := hlr
      exact hinv.segment_closed hseq l r hlr1 x hx y
        ((mem_restrict_boundary c value x y).mpr ⟨hy, hval.symm⟩)

theorem priority_extends_faces_witness :
    WellFormed triangle triangleDim ∧ Closure triangle triangleValue ∧ Exact triangleValue ∧
    (∀ l : List (Fin 6), (List.reverse l).Perm l) ∧
    ((∃ f, plain triangle (fun _ => 3) = .ok f ∧
      (∀ x, ∀ y ∈ triangle.boundary x, priority f y < priority f x) ∧
      (∀ l r : List (Fin 6), l ++ r = f.log →
        ∀ x ∈ l, ∀ y ∈ triangle.boundary x, y ∈ l)) ∧
    (∃ g, gradedM triangle triangleValue List.reverse (fun _ => 3) = .ok g ∧
      (∀ x, ∀ y ∈ triangle.boundary x, priority g y < priority g x) ∧
      (∀ l r : List (Fin 6), l ++ r = g.log →
        ∀ x ∈ l, ∀ y ∈ triangle.boundary x, triangleValue y = triangleValue x → y ∈ l))) :=
  ⟨triangle_wellFormed, triangle_closure, triangleValue_exact, fun l => List.reverse_perm l,
    priority_extends_faces triangle triangleDim triangleValue triangle_wellFormed
      triangle_closure triangleValue_exact List.reverse (fun l => List.reverse_perm l)
      (fun _ => 3)⟩

/-- C18, as stated, fails.  On the triangle edge complex, which is well-formed, with the
edge `5` of grade `6148914691236517205` and every other cell of grade 0, a fibration that
has the closure property, `value 5 * 6` wraps to `-2` in `Integer`; the edge `5`, processed
last, gets the priority `-2 + 5 = 3`, which is the priority of the cell `2`, and which is
not `value 5 * 6 + n` for any sequence number `n ≥ 0`. -/
theorem graded_priority_collision_counterexample :
    WellFormed triangle triangleDim ∧ Closure triangle triangleCollide ∧
    ∃ g, gradedM triangle triangleCollide id (fun _ => 0) = .ok g ∧
      priority g 2 = 3 ∧ priority g 5 = 3 ∧ (2 : Fin 6) ≠ 5 ∧
      ∀ n : Int, 0 ≤ n → priority g 5 ≠ triangleCollide 5 * ((6 : Nat) : Int) + n := by
  have hg : returns (gradedM triangle triangleCollide id (fun _ => 0)) (fun g =>
      decide (priority g 2 = 3 ∧ priority g 5 = 3)) = true := by
    decide
  obtain ⟨g, hg1, hg2⟩ := (returns_iff _ _).mp hg
  have hpr := of_decide_eq_true hg2
  refine ⟨triangle_wellFormed, triangleCollide_closure, g, hg1, hpr.1, hpr.2, by decide, ?_⟩
  intro n hn
  rw [hpr.2]
  have hv : triangleCollide 5 * ((6 : Nat) : Int) = 36893488147419103230 := by decide
  rw [hv]
  omega

/-- C18, amended: on a well-formed complex of size `N`, for every integer-valued fibration
with the closure property for which the arithmetic is exact (`value x * N` and
`value x * N + N` in the range of `Integer`), for every enumeration order of the chains and
every extraction order, the graded priority of every cell `x` is `value x * N + seq x`,
where `seq x`, the position of `x` in the order of processing, is a bijection from the
cells onto `[0,N)`; so the `N` graded priorities are pairwise different, also across
grades. -/
theorem graded_priority_decomposition (c : Complex N) (dim : Fin N → Nat)
    (value : Fibration N) (hwf : WellFormed c dim) (hcl : Closure c value)
    (hex : Exact value) (enum : List (Fin N) → List (Fin N))
    (hperm : ∀ l, (enum l).Perm l) (ord : Nat → Nat) :
    ∃ g, gradedM c value enum ord = .ok g ∧
      ∃ seq : Fin N → Int,
        (∀ x, priority g x = value x * (N : Int) + seq x) ∧
        (∀ x, g.log[(seq x).toNat]? = some x) ∧
        (∀ x, 0 ≤ seq x ∧ seq x < (N : Int)) ∧
        (∀ x y, seq x = seq y → x = y) ∧
        (∀ k : Int, 0 ≤ k → k < (N : Int) → ∃ x, seq x = k) ∧
        (∀ x y, priority g x = priority g y → x = y) := by
  obtain ⟨p, _, hg, hinv, hN, hall, hseq⟩ := gradedM_inv c dim value hwf hcl enum hperm ord
  obtain ⟨b1, b2, b3⟩ := hinv.priority_bijection hall hN
  have hprio : ∀ x, priority (regradeM value p) x = value x * (N : Int) + priority p x := by
    intro x
    rw [regradeM_priority value p x (hall x)]
    exact wrap_of_exact value hex x _ (b1 x).1 (b1 x).2
  refine ⟨regradeM value p, hg, priority p, hprio, ?_, b1, b2, b3, ?_⟩
  · intro x
    obtain ⟨i, hi⟩ := List.mem_iff_getElem?.mp (hall x)
    have := hseq i x hi
    have e : (priority p x).toNat = i := by
      unfold priority
      omega
    rw [e]
    exact hi
  · intro x y hxy
    rw [hprio x, hprio y] at hxy
    have rx := b1 x
    have ry := b1 y
    apply b2
    rcases lt_trichotomy (value x) (value y) with h | h | h
    · have := grade_lt_priority_lt N _ _ _ _ h rx.2 ry.1
      omega
    · rw [h] at hxy
      omega
    · have := grade_lt_priority_lt N _ _ _ _ h ry.2 rx.1
      omega

theorem graded_priority_decomposition_witness :
    WellFormed triangle triangleDim ∧ Closure triangle triangleValue ∧ Exact triangleValue ∧
    (∀ l : List (Fin 6), (List.reverse l).Perm l) ∧
    ∃ g, gradedM triangle triangleValue List.reverse (fun t => t + 2) = .ok g ∧
      ∃ seq : Fin 6 → Int,
        (∀ x, priority g x = triangleValue x * ((6 : Nat) : Int) + seq x) ∧
        (∀ x, g.log[(seq x).toNat]? = some x) ∧
        (∀ x, 0 ≤ seq x ∧ seq x < ((6 : Nat) : Int)) ∧
        (∀ x y, seq x = seq y → x = y) ∧
        (∀ k : Int, 0 ≤ k → k < ((6 : Nat) : Int) → ∃ x, seq x = k) ∧
        (∀ x y, priority g x = priority g y → x = y) :=
  ⟨triangle_wellFormed, triangle_closure, triangleValue_exact, fun l => List.reverse_perm l,
    graded_priority_decomposition triangle triangleDim triangleValue triangle_wellFormed
      triangle_closure triangleValue_exact List.reverse (fun l => List.reverse_perm l)
      (fun t => t + 2)⟩

/-- On a well-formed complex with a fibration that has the closure property, the graded
constructor returns the same matching in machine arithmetic, for every enumeration order of
the chains, as with exact integers and chains enumerated as built; and the same state when
the arithmetic is exact. -/
theorem gradedM_same_matching (c : Complex N) (dim : Fin N → Nat) (value : Fibration N)
    (hwf : WellFormed c dim) (hcl : Closure c value)
    (enum : List (Fin N) → List (Fin N)) (hperm : ∀ l, (enum l).Perm l) (ord : Nat → Nat) :
    ∃ g m, graded c value ord = .ok g ∧ gradedM c value enum ord = .ok m ∧
      m.mate_ = g.mate_ ∧ m.log = g.log ∧ m.aces = g.aces ∧ (Exact value → m = g) := by
  obtain ⟨p, hp, hm, hinv, hN, hall, _⟩ := gradedM_inv c dim value hwf hcl enum hperm ord
  have hg : graded c value ord = .ok (regrade value p) := by
    rw [graded_eq c value hcl ord, hp]
    rfl
  refine ⟨regrade value p, regradeM value p, hg, hm, rfl, rfl, rfl, ?_⟩
  intro hex
  refine State.eq_of_fields rfl ?_ rfl rfl rfl rfl rfl rfl
  funext x
  have r := hinv.core.prio_range x (hall x)
  have h1 := regradeM_priority value p x (hall x)
  have h2 := regrade_priority value p x (hall x)
  have hlt : priority p x < (N : Int) := by unfold priority; omega
  rw [wrap_of_exact value hex x (priority p x) r.1 hlt] at h1
  unfold priority at h1 h2
  rw [h1, h2]

end MorseMatching
